import Mathlib

/-!
Verification of the response-normalization layer of the D2G data/graph tool.

The repository ships two parallel implementations of the same pipeline:
`src/unnamed/part_005` (an older `aiService.ts`) and `src/services/aiService.ts`,
plus a Gemini-only variant in `src/unnamed/part_006` and a settings loader in
`src/unnamed/part_008`.  This file shallowly embeds the pure string-processing
core of those functions over `List Char` and proves / refutes the spec's claims
about them.

Conventions:
* JS strings are `List Char` (`Chars`); JS `indexOf`-style `-1` sentinels are
  mirrored with `Int`-valued wrappers where the source compares against `-1`.
* `JSON.parse` is modelled by the executable parser `jParse` below, which
  follows ECMA-404: whitespace skipping, the leading-zero rule for numbers,
  escape sequences, rejection of raw control characters in strings, and
  rejection of trailing commas.  Numbers are kept exactly as
  mantissa × 10^exponent (no float rounding); JS number identification beyond
  that and Unicode-whitespace classes beyond ASCII are not modelled, and no
  claim below depends on them.
-/

/-- Character lists standing for JS strings. -/
abbrev Chars := List Char

/-- The backtick character (written via its code so it never appears bare). -/
def btk : Char := Char.ofNat 96

/-- Double quote. -/
def quc : Char := Char.ofNat 34

/-- Backslash. -/
def bsl : Char := Char.ofNat 92

/-- Opening curly brace. -/
def lbr : Char := Char.ofNat 123

/-- Closing curly brace. -/
def rbr : Char := Char.ofNat 125

/-- Opening square bracket. -/
def lbk : Char := Char.ofNat 91

/-- Closing square bracket. -/
def rbk : Char := Char.ofNat 93

/-- Comma. -/
def cma : Char := Char.ofNat 44

/-- Colon. -/
def cln : Char := Char.ofNat 58

/-- Minus sign. -/
def mns : Char := Char.ofNat 45

/-- Dot. -/
def dtc : Char := Char.ofNat 46

/-- Forward slash. -/
def sls : Char := Char.ofNat 47

/-- The seven characters of the opening marker the sources write as a
triple backtick followed by the word json. -/
def fenceJson : Chars := [btk, btk, btk, 'j', 's', 'o', 'n']

/-- A bare triple-backtick fence. -/
def fence3 : Chars := [btk, btk, btk]

/-- ASCII whitespace as matched by the JS regex class `\s` and `String.trim`
(the sources' regexes also match rare Unicode spaces; claims never involve
those, so the ASCII subset is what is modelled). -/
def isJsWs (c : Char) : Bool :=
  c = ' ' || c = Char.ofNat 9 || c = Char.ofNat 10 || c = Char.ofNat 13 ||
  c = Char.ofNat 11 || c = Char.ofNat 12

/-- JSON (ECMA-404) interelement whitespace: space, tab, newline, return. -/
def isJWs (c : Char) : Bool :=
  c = ' ' || c = Char.ofNat 9 || c = Char.ofNat 10 || c = Char.ofNat 13

/-- Decimal digit test. -/
def isDig (c : Char) : Bool := 48 ≤ c.toNat && c.toNat ≤ 57

/-- Drop leading JSON whitespace. -/
def wsDrop (s : Chars) : Chars := s.dropWhile isJWs

/-- JS `String.prototype.trim` (ASCII subset): strip `\s` from both ends. -/
def jsTrim (s : Chars) : Chars :=
  ((s.dropWhile isJsWs).reverse.dropWhile isJsWs).reverse

/-- A parsed JSON value, as `JSON.parse` would produce it, except that numbers
stay exact (mantissa × 10^exponent) and object member lists keep their textual
order and duplicates (JS property semantics are recovered by the last-wins
lookup `getF`). -/
inductive JVal where
  | jnull
  | jbool (b : Bool)
  | jnum (m : Int) (p : Int)
  | jstr (s : Chars)
  | jarr (elems : List JVal)
  | jobj (fields : List (Chars × JVal))

/-- Numeric value of a run of decimal digit characters. -/
def digsVal (ds : Chars) : Nat :=
  ds.foldl (fun a c => a * 10 + (c.toNat - 48)) 0

/-- Hex digit value, if any. -/
def hexV (c : Char) : Option Nat :=
  if 48 ≤ c.toNat ∧ c.toNat ≤ 57 then some (c.toNat - 48)
  else if 97 ≤ c.toNat ∧ c.toNat ≤ 102 then some (c.toNat - 87)
  else if 65 ≤ c.toNat ∧ c.toNat ≤ 70 then some (c.toNat - 55)
  else none

/-- Single-character escapes accepted after a backslash in a JSON string. -/
def escV (c : Char) : Option Char :=
  if c = quc then some quc
  else if c = bsl then some bsl
  else if c = sls then some sls
  else if c = 'b' then some (Char.ofNat 8)
  else if c = 'f' then some (Char.ofNat 12)
  else if c = 'n' then some (Char.ofNat 10)
  else if c = 'r' then some (Char.ofNat 13)
  else if c = 't' then some (Char.ofNat 9)
  else none

/-- Parse the body of a JSON string (after the opening quote), returning the
decoded content and the input after the closing quote.  Raw control characters
are rejected, as `JSON.parse` rejects them.  Lone `\u` surrogates decode
through `Char.ofNat`'s fallback; no claim depends on that corner. -/
def jStrBody : Chars → Option (Chars × Chars)
  | [] => none
  | c :: r =>
    if c = quc then some ([], r)
    else if c = bsl then
      match r with
      | [] => none
      | e :: r2 =>
        if e = 'u' then
          match r2 with
          | a :: b :: c3 :: d :: r3 =>
            match hexV a, hexV b, hexV c3, hexV d with
            | some x, some y, some z, some w =>
              (jStrBody r3).map (fun p => (Char.ofNat (((x * 16 + y) * 16 + z) * 16 + w) :: p.1, p.2))
            | _, _, _, _ => none
          | _ => none
        else
          match escV e with
          | some ch => (jStrBody r2).map (fun p => (ch :: p.1, p.2))
          | none => none
    else if c.toNat < 32 then none
    else (jStrBody r).map (fun p => (c :: p.1, p.2))

/-- Parse the optional exponent part of a JSON number (at `e`/`E`). -/
def jExpPart (s : Chars) : Option (Int × Chars) :=
  match s with
  | [] => some (0, [])
  | c :: r =>
    if c = 'e' ∨ c = 'E' then
      let sr : Int × Chars :=
        match r with
        | [] => (1, r)
        | c2 :: r2 => if c2 = '+' then (1, r2) else if c2 = mns then (-1, r2) else (1, r)
      let es := sr.2.takeWhile isDig
      if es = [] then none else some (sr.1 * (digsVal es : Int), sr.2.dropWhile isDig)
    else some (0, s)

/-- Parse the optional fraction part of a JSON number (at the dot). -/
def jFracPart (s : Chars) : Option (Chars × Chars) :=
  match s with
  | [] => some ([], [])
  | c :: r =>
    if c = dtc then
      let fs := r.takeWhile isDig
      if fs = [] then none else some (fs, r.dropWhile isDig)
    else some ([], s)

/-- Parse a JSON number token, with the ECMA-404 leading-zero rule. -/
def jNum (s : Chars) : Option (JVal × Chars) :=
  let ns : Bool × Chars :=
    match s with
    | [] => (false, s)
    | c :: r => if c = mns then (true, r) else (false, s)
  match ns.2 with
  | [] => none
  | c :: _ =>
    if ¬ isDig c then none
    else
      let ds := ns.2.takeWhile isDig
      let r1 := ns.2.dropWhile isDig
      if 1 < ds.length ∧ ds.head? = some '0' then none
      else
        match jFracPart r1 with
        | none => none
        | some (fs, r2) =>
          match jExpPart r2 with
          | none => none
          | some (ex, r3) =>
            some (.jnum ((if ns.1 then -1 else 1) * (digsVal (ds ++ fs) : Int)) (ex - fs.length), r3)

mutual

/-- Parse one JSON value; the input must start at the value (whitespace already
skipped).  Fuel only bounds the mutual recursion. -/
def jVal : Nat → Chars → Option (JVal × Chars)
  | 0, _ => none
  | _ + 1, [] => none
  | f + 1, c :: r =>
    if c = lbr then
      match wsDrop r with
      | [] => none
      | c2 :: r2 =>
        if c2 = rbr then some (.jobj [], r2)
        else
          match jFields f (c2 :: r2) with
          | some (fs, r3) => some (.jobj fs, r3)
          | none => none
    else if c = lbk then
      match wsDrop r with
      | [] => none
      | c2 :: r2 =>
        if c2 = rbk then some (.jarr [], r2)
        else
          match jItems f (c2 :: r2) with
          | some (vs, r3) => some (.jarr vs, r3)
          | none => none
    else if c = quc then
      match jStrBody r with
      | some (s, r1) => some (.jstr s, r1)
      | none => none
    else if c = 't' then
      if List.isPrefixOf ['r', 'u', 'e'] r then some (.jbool true, r.drop 3) else none
    else if c = 'f' then
      if List.isPrefixOf ['a', 'l', 's', 'e'] r then some (.jbool false, r.drop 4) else none
    else if c = 'n' then
      if List.isPrefixOf ['u', 'l', 'l'] r then some (.jnull, r.drop 3) else none
    else if c = mns ∨ isDig c then jNum (c :: r)
    else none

/-- Parse one-or-more comma-separated array elements up to the closing
bracket; the empty array is handled in `jVal`. -/
def jItems : Nat → Chars → Option (List JVal × Chars)
  | 0, _ => none
  | f + 1, s =>
    match jVal f s with
    | none => none
    | some (v, r1) =>
      match wsDrop r1 with
      | [] => none
      | c :: r2 =>
        if c = cma then
          match jItems f (wsDrop r2) with
          | some (vs, r3) => some (v :: vs, r3)
          | none => none
        else if c = rbk then some ([v], r2)
        else none

/-- Parse one-or-more object members up to the closing brace; the empty
object is handled in `jVal`. -/
def jFields : Nat → Chars → Option (List (Chars × JVal) × Chars)
  | 0, _ => none
  | f + 1, s =>
    match s with
    | [] => none
    | c :: r =>
      if c = quc then
        match jStrBody r with
        | none => none
        | some (k, r1) =>
          match wsDrop r1 with
          | [] => none
          | c2 :: r2 =>
            if c2 = cln then
              match jVal f (wsDrop r2) with
              | none => none
              | some (v, r3) =>
                match wsDrop r3 with
                | [] => none
                | c3 :: r4 =>
                  if c3 = cma then
                    match jFields f (wsDrop r4) with
                    | some (fs, r5) => some ((k, v) :: fs, r5)
                    | none => none
                  else if c3 = rbr then some ([(k, v)], r4)
                  else none
            else none
      else none

end

/-- The model of `JSON.parse`: parse a complete document, allowing only
whitespace around the single top-level value, `none` on any syntax error
(where `JSON.parse` throws `SyntaxError`). -/
def jParse (s : Chars) : Option JVal :=
  match jVal (s.length + 1) (wsDrop s) with
  | some (v, r) => if wsDrop r = [] then some v else none
  | none => none

/-! ### A canonical renderer, used to state the trailing-comma repair claim

`emit true v` prints `v` with no whitespace and with a trailing comma inserted
before the closer of every nonempty array and object (the malformed-but-
repairable shape claim C4 is about); `emit false v` is the same without the
trailing commas, i.e. strict JSON. -/

/-- Render a JSON string literal (content must be escape-free; see `plainJ`). -/
def emitStr (s : Chars) : Chars := quc :: (s ++ [quc])

/-- Decimal digit characters of `n`, most significant first. -/
def natChars (n : Nat) : Chars :=
  if n < 10 then [Char.ofNat (48 + n)]
  else natChars (n / 10) ++ [Char.ofNat (48 + n % 10)]
termination_by n
decreasing_by exact Nat.div_lt_self (by omega) (by omega)

/-- An integer's characters: optional minus sign, then decimal digits. -/
def intChars (m : Int) : Chars :=
  (if m < 0 then [mns] else []) ++ natChars m.natAbs

mutual

/-- Render a value with no whitespace; with `tc` insert a trailing comma in
every nonempty array and object. -/
def emit (tc : Bool) : JVal → Chars
  | .jnull => ['n', 'u', 'l', 'l']
  | .jbool true => ['t', 'r', 'u', 'e']
  | .jbool false => ['f', 'a', 'l', 's', 'e']
  | .jnum m _ => intChars m
  | .jstr s => emitStr s
  | .jarr [] => [lbk, rbk]
  | .jarr (x :: xs) => lbk :: (emitItems tc x xs ++ (if tc then [cma, rbk] else [rbk]))
  | .jobj [] => [lbr, rbr]
  | .jobj (f :: fs) => lbr :: (emitFields tc f fs ++ (if tc then [cma, rbr] else [rbr]))
termination_by v => sizeOf v

/-- Comma-separated rendering of a nonempty element list. -/
def emitItems (tc : Bool) : JVal → List JVal → Chars
  | x, [] => emit tc x
  | x, y :: ys => emit tc x ++ cma :: emitItems tc y ys
termination_by x ys => sizeOf x + sizeOf ys

/-- Comma-separated rendering of a nonempty member list. -/
def emitFields (tc : Bool) : Chars × JVal → List (Chars × JVal) → Chars
  | (k, v), [] => emitStr k ++ cln :: emit tc v
  | (k, v), g :: gs => emitStr k ++ cln :: emit tc v ++ cma :: emitFields tc g gs
termination_by f fs => sizeOf f + sizeOf fs

end

/-- A string character that renders as itself and never interacts with the
comma-repair regex: not a quote, not a backslash, not a comma, not a control
character. -/
def plainChar (c : Char) : Bool :=
  c ≠ quc && c ≠ bsl && c ≠ cma && 32 ≤ c.toNat

mutual

/-- Values in the canonical image of `emit`: integer numbers (exponent 0) and
escape-free, comma-free strings, nested arbitrarily. -/
def plainJ : JVal → Bool
  | .jnull => true
  | .jbool _ => true
  | .jnum _ p => p = 0
  | .jstr s => s.all plainChar
  | .jarr xs => plainL xs
  | .jobj fs => plainF fs
termination_by v => sizeOf v

/-- `plainJ` on every element. -/
def plainL : List JVal → Bool
  | [] => true
  | x :: xs => plainJ x && plainL xs
termination_by xs => sizeOf xs

/-- `plainJ` on every member value and `plainChar` on every key. -/
def plainF : List (Chars × JVal) → Bool
  | [] => true
  | (k, v) :: fs => k.all plainChar && plainJ v && plainF fs
termination_by fs => sizeOf fs

end

/-! ### Models of the JS string primitives the sources use -/

/-- `String.prototype.indexOf` for a single character (`none` for JS `-1`). -/
def chIdx (c : Char) : Chars → Option Nat
  | [] => none
  | x :: r => if x = c then some 0 else (chIdx c r).map (· + 1)

/-- `String.prototype.lastIndexOf` for a single character. -/
def chIdxLast (c : Char) : Chars → Option Nat
  | [] => none
  | x :: r =>
    match chIdxLast c r with
    | some i => some (i + 1)
    | none => if x = c then some 0 else none

/-- `String.prototype.lastIndexOf` for a substring pattern. -/
def subIdxLast (pat : Chars) : Chars → Option Nat
  | [] => if List.isPrefixOf pat [] then some 0 else none
  | x :: r =>
    match subIdxLast pat r with
    | some i => some (i + 1)
    | none => if List.isPrefixOf pat (x :: r) then some 0 else none

/-- The `Int` result JS code compares against `-1`. -/
def jsIdxInt (o : Option Nat) : Int :=
  match o with
  | some i => (i : Int)
  | none => -1

/-- Clamp a JS index into `[0, n]`. -/
def jsClamp (x : Int) (n : Nat) : Nat := (min (max x 0) (n : Int)).toNat

/-- `String.prototype.substring(a, b)`: negative arguments clamp to 0,
arguments beyond the length clamp to the length, and the bounds swap if
given in reverse order. -/
def jsSubstring (s : Chars) (a b : Int) : Chars :=
  let a2 := jsClamp a s.length
  let b2 := jsClamp b s.length
  (s.drop (min a2 b2)).take (max a2 b2 - min a2 b2)

/-- Does the remainder, after JS whitespace, start with `}` or `]`?  This is
the lookahead `(?=\s*[}\]])` of the comma-repair regex in
`src/services/aiService.ts` line 117. -/
def closerAfterWs : Chars → Bool
  | [] => false
  | c :: r => if isJsWs c then closerAfterWs r else c = rbr || c = rbk

/-- The repair pass `potentialJson.replace(/,(?=\s*[}\]])/g, '')` of
`parseJsonResponse` (`src/services/aiService.ts` line 117): drop every comma
whose lookahead (in the original string) is whitespace and then a closer. -/
def repairCommas : Chars → Chars
  | [] => []
  | c :: r =>
    if c = cma ∧ closerAfterWs r then repairCommas r
    else c :: repairCommas r

/-! ### `extractJsonString` (`src/unnamed/part_005`, lines 50–84) -/

/-- Characters strictly before the first triple-backtick fence, if one
occurs.  Scanning is left-to-right, so an occurrence overlapping a later one
is found first, exactly as the lazy group of the source regex ends at the
first reachable closing fence. -/
def fenceTail : Chars → Option Chars
  | [] => none
  | c :: r =>
    if List.isPrefixOf fence3 (c :: r) then some []
    else (fenceTail r).map (c :: ·)

/-- The span strictly between the first json fence opener that has a later
closing fence, and that first closing fence.  This is the leftmost match of
the source regex (triple backtick, `json`, lazy group, triple backtick):
a leftmost match starts at the first occurrence of the opening marker — if no
closing fence follows it, none follows any later opener either, and the regex
fails to match at all. -/
def fenceScan : Chars → Option Chars
  | [] => none
  | c :: r =>
    if List.isPrefixOf fenceJson (c :: r) then fenceTail ((c :: r).drop 7)
    else fenceScan r

/-- The regex capture group: the fenced span with the `\s*` padding on both
sides absorbed by the greedy/lazy quantifiers, i.e. trimmed. -/
def fenceGroup (s : Chars) : Option Chars := (fenceScan s).map jsTrim

/-- Cases 2 and 3 of `extractJsonString`: slice from the first `{`/`[` to the
last `}`/`]` when that span is nonempty, else accept the trimmed text if it
starts with `{` or `[`, else fail. -/
def extractNoFence (text : Chars) : Option Chars :=
  let firstBrace := jsIdxInt (chIdx lbr text)
  let firstBracket := jsIdxInt (chIdx lbk text)
  let start :=
    if firstBrace = -1 then firstBracket
    else if firstBracket = -1 then firstBrace
    else min firstBrace firstBracket
  let lastBrace := jsIdxInt (chIdxLast rbr text)
  let lastBracket := jsIdxInt (chIdxLast rbk text)
  let stop := max lastBrace lastBracket
  if start ≠ -1 ∧ stop > start then some (jsSubstring text start (stop + 1))
  else
    match jsTrim text with
    | [] => none
    | c :: r => if c = lbr ∨ c = lbk then some (c :: r) else none

/-- `extractJsonString` of `src/unnamed/part_005`: empty text fails; a
nonempty regex capture group wins; an empty capture group is falsy in JS, so
it falls through to the brace/bracket cases like a failed match. -/
def extractJsonString (text : Chars) : Option Chars :=
  if text = [] then none
  else
    match fenceGroup text with
    | some g => if g ≠ [] then some g else extractNoFence text
    | none => extractNoFence text

/-! ### `parseJsonResponse` (`src/services/aiService.ts`, lines 96–126) -/

/-- Classified failures of the `aiService.ts` pipelines. -/
inductive AiErr where
  | invalidFormat
  | invalidResponse
  | missingConfig
deriving DecidableEq

/-- Step 1 of `parseJsonResponse`: if the last occurrence of the json fence
opener is strictly before the last occurrence of a bare fence, slice strictly
between them. -/
def sliceFence (p : Chars) : Chars :=
  let si := jsIdxInt (subIdxLast fenceJson p)
  if si ≠ -1 then
    let ei := jsIdxInt (subIdxLast fence3 p)
    if ei > si then jsSubstring p (si + 7) ei else p
  else p

/-- Step 2 of `parseJsonResponse`: slice from the first `{` to the last `}`
when that span is nonempty (brackets are not considered here). -/
def sliceBraces (p : Chars) : Chars :=
  let fb := jsIdxInt (chIdx lbr p)
  let lb := jsIdxInt (chIdxLast rbr p)
  if fb ≠ -1 ∧ lb > fb then jsSubstring p fb (lb + 1) else p

/-- The candidate string `parseJsonResponse` hands to the comma repair. -/
def sliceCandidate (text : Chars) : Chars := sliceBraces (sliceFence text)

/-- `parseJsonResponse` (without the generic type cast): repair the sliced
candidate and parse it; any parse failure becomes the function's own
`SyntaxError` ("AI returned an invalid format"). -/
def parseJsonResponseFn (text : Chars) : Except AiErr JVal :=
  match jParse (repairCommas (sliceCandidate text)) with
  | some v => Except.ok v
  | none => Except.error AiErr.invalidFormat

/-! ### Field access and truthiness on parsed values -/

/-- Last-wins member lookup (duplicate keys behave as in a JS object). -/
def getFMem : List (Chars × JVal) → Chars → Option JVal
  | [], _ => none
  | (k, v) :: r, key =>
    match getFMem r key with
    | some w => some w
    | none => if k = key then some v else none

/-- JS property read `j[key]`: `none` is `undefined`; non-objects have no
modelled properties. -/
def getF : JVal → Chars → Option JVal
  | .jobj fs, key => getFMem fs key
  | _, _ => none

/-- JS truthiness of a parsed JSON value (note an empty array is truthy). -/
def jsTruthy : JVal → Bool
  | .jnull => false
  | .jbool b => b
  | .jnum m _ => m ≠ 0
  | .jstr s => s ≠ []
  | .jarr _ => true
  | .jobj _ => true

/-- The keys the pipelines read. -/
def isChartKey : Chars := "isChart".toList

/-- The suggestions key. -/
def sugKey : Chars := "suggestions".toList

/-- The reason key. -/
def reasonKey : Chars := "reason".toList

/-- The report key. -/
def reportKey : Chars := "report".toList

/-- The data key. -/
def dataKey : Chars := "data".toList

/-- The id key. -/
def idKey : Chars := "id".toList

/-- The provider key. -/
def providerKey : Chars := "provider".toList

/-- The dataToGraph key. -/
def d2gKey : Chars := "dataToGraph".toList

/-- The graphToData key. -/
def g2dKey : Chars := "graphToData".toList

/-! ### The two `analyzeDataForGraphSuggestions` mappings -/

/-- `rawResponse.substring(0, rawResponse.lastIndexOf('json fence'))` of
`src/services/aiService.ts` line 168 (when the fence is absent the `-1`
clamps to 0 and the report is empty). -/
def reportPrefix (raw : Chars) : Chars :=
  jsSubstring raw 0 (jsIdxInt (subIdxLast fenceJson raw))

/-- `suggestionsResponse.suggestions || []` of `aiService.ts` line 170: the
field's value if present and truthy, else an empty array. -/
def suggestionsOf (j : JVal) : JVal :=
  match getF j sugKey with
  | some v => if jsTruthy v then v else JVal.jarr []
  | none => JVal.jarr []

/-- The response-to-result mapping of `analyzeDataForGraphSuggestions` in
`src/services/aiService.ts` (lines 168–179), given the transport's raw text:
parse failures are caught and rethrown as the classified invalid-format
error (the parser's message contains "JSON"); a success carries the report
prefix and whatever `suggestions` holds. -/
def aiAnalyzeData (raw : Chars) : Except AiErr (Chars × JVal) :=
  match parseJsonResponseFn raw with
  | Except.error _ => Except.error AiErr.invalidFormat
  | Except.ok j => Except.ok (reportPrefix raw, suggestionsOf j)

/-- Classified failures of the `src/unnamed/part_005` pipelines. -/
inductive P5Err where
  | notConfigured
  | nonJson (preview : Chars)
  | malformedJson
deriving DecidableEq

/-- The extract-then-parse step shared by the custom-provider paths of
`src/unnamed/part_005` (lines 138–145 and 297–304): a `null` extraction
throws the "non-JSON response" error carrying a 50-character preview, a
`JSON.parse` failure throws the "malformed JSON" error, and there is no
repair pass in this file. -/
def p5MapResponse (raw : Chars) : Except P5Err JVal :=
  match extractJsonString raw with
  | none => Except.error (P5Err.nonJson (jsSubstring raw 0 50))
  | some s =>
    match jParse s with
    | none => Except.error P5Err.malformedJson
    | some j => Except.ok j

/-! ### The two `analyzeGraphImage` result mappings -/

/-- `analyzeGraphImage` mapping of `src/services/aiService.ts` (lines
225–232): robust-parse the raw text, then accept the parsed object iff
`typeof result.isChart === 'boolean'`. -/
def aiAnalyzeImage (raw : Chars) : Except AiErr JVal :=
  match parseJsonResponseFn raw with
  | Except.error e => Except.error e
  | Except.ok j =>
    match getF j isChartKey with
    | some (JVal.jbool _) => Except.ok j
    | _ => Except.error AiErr.invalidResponse

/-- Classified failures of the `src/unnamed/part_006` pipeline. -/
inductive P6Err where
  | jsonSyntax
  | invalidResponse
deriving DecidableEq

/-- `analyzeGraphImage` mapping of `src/unnamed/part_006` (lines 112–119):
`JSON.parse(response.text.trim())`, then the same `isChart` boolean check. -/
def p6AnalyzeImage (raw : Chars) : Except P6Err JVal :=
  match jParse (jsTrim raw) with
  | none => Except.error P6Err.jsonSyntax
  | some j =>
    match getF j isChartKey with
    | some (JVal.jbool _) => Except.ok j
    | _ => Except.error P6Err.invalidResponse

/-! ### Provider configuration and the pre-request gates (claim C7) -/

/-- A custom OpenAI-compatible endpoint configuration. -/
structure CustomModelConfig where
  baseUrl : Chars
  apiKey : Chars
  model : Chars
deriving DecidableEq

/-- Which backend serves a task. -/
inductive ProviderKind where
  | google
  | custom
deriving DecidableEq

/-- A per-task provider configuration value. -/
structure ProviderConfig where
  provider : ProviderKind
  custom : Option CustomModelConfig
deriving DecidableEq

/-- The first network request a pipeline would issue. -/
inductive RequestTarget where
  | googleReq
  | customReq (url : Chars)
deriving DecidableEq

/-- Configuration failures raised before any request. -/
inductive CfgErr where
  | notConfigured
  | missingConfig
deriving DecidableEq

/-- The path appended to the base URL for completions. -/
def chatPath : Chars := "/chat/completions".toList

/-- `baseUrl.replace(/\/$/, '')`: drop one trailing slash. -/
def cleanBase (u : Chars) : Chars :=
  match u.getLast? with
  | some c => if c = sls then u.dropLast else u
  | none => u

/-- What `analyzeDataForGraphSuggestions` of `src/unnamed/part_005` (lines
91–95 and onward) does before any await: with a custom provider whose config
object is present, empty fields throw the not-configured error, otherwise the
custom completions request is prepared; with the config object absent
(`providerConfig.custom` falsy) the guard fails and control falls through to
the Google branch. -/
def p5DataGate (cfg : ProviderConfig) : Except CfgErr RequestTarget :=
  match cfg.provider, cfg.custom with
  | ProviderKind.custom, some c =>
    if c.baseUrl = [] ∨ c.apiKey = [] ∨ c.model = [] then Except.error CfgErr.notConfigured
    else Except.ok (RequestTarget.customReq (cleanBase c.baseUrl ++ chatPath))
  | _, _ => Except.ok RequestTarget.googleReq

/-- What `analyzeDataForGraphSuggestions` of `src/services/aiService.ts`
(lines 136–159) does before its fetch: the Google branch needs no custom
config; otherwise a missing config object throws, and a present one is used
as-is — no emptiness validation. -/
def aiDataGate (cfg : ProviderConfig) : Except CfgErr RequestTarget :=
  match cfg.provider with
  | ProviderKind.google => Except.ok RequestTarget.googleReq
  | ProviderKind.custom =>
    match cfg.custom with
    | none => Except.error CfgErr.missingConfig
    | some c => Except.ok (RequestTarget.customReq (c.baseUrl ++ chatPath))

/-! ### `testCustomModelConnection` (claim C8) -/

/-- Outcome of the part_005 connection test.  `rawFailure` stands for the
branch where the fetch itself rejected and the raw error object is rethrown
unwrapped (`src/unnamed/part_005` lines 448–453). -/
inductive TestOutcome where
  | okTest
  | authFail (s : Nat)
  | endpointMissing (s : Nat)
  | connFail (s : Nat)
  | cfgRequired
  | rawFailure
deriving DecidableEq

/-- `testCustomModelConnection` of `src/unnamed/part_005` (lines 420–455),
as a function of the HTTP status (`none` = network-level failure): empty
config fields fail first; then any 2xx passes `response.ok`; 401/403, 404 and
other statuses throw their respective classified errors. -/
def p5TestConn (cfg : CustomModelConfig) (resp : Option Nat) : TestOutcome :=
  if cfg.baseUrl = [] ∨ cfg.apiKey = [] ∨ cfg.model = [] then TestOutcome.cfgRequired
  else
    match resp with
    | none => TestOutcome.rawFailure
    | some s =>
      if 200 ≤ s ∧ s ≤ 299 then TestOutcome.okTest
      else if s = 401 ∨ s = 403 then TestOutcome.authFail s
      else if s = 404 then TestOutcome.endpointMissing s
      else TestOutcome.connFail s

/-- `testCustomModelConnection` of `src/services/aiService.ts` (lines
242–259): `return res.ok`, with every thrown error caught and turned into
`false` — a bare boolean, no classification. -/
def aiTestConn (resp : Option Nat) : Bool :=
  match resp with
  | none => false
  | some s => decide (200 ≤ s ∧ s ≤ 299)

/-! ### `fetchCustomModels` (claim C9) -/

/-- Classified failures of the part_005 model-listing call. -/
inductive FetchErr where
  | requiredCfg
  | authFail (s : Nat)
  | httpFail (s : Nat)
  | bodyNotJson
  | netFailure
deriving DecidableEq

/-- `model.id` of a listed entry (`undefined`, modelled `jnull`, if absent). -/
def idOf (j : JVal) : JVal :=
  match getF j idKey with
  | some v => v
  | none => JVal.jnull

/-- The sort key `Array.prototype.sort` compares: the string itself for
string ids.  Ids of other shapes (no real endpoint produces them, and no
claim touches them) are approximated by an empty key. -/
def keyOfId : JVal → Chars
  | JVal.jstr s => s
  | _ => []

/-- Lexicographic order on char codes — JS default string comparison. -/
def leChars : Chars → Chars → Bool
  | [], _ => true
  | _ :: _, [] => false
  | a :: as, b :: bs =>
    if a.toNat < b.toNat then true
    else if b.toNat < a.toNat then false
    else leChars as bs

/-- Insert into a sorted list. -/
def insSorted (x : JVal) : List JVal → List JVal
  | [] => [x]
  | y :: ys => if leChars (keyOfId x) (keyOfId y) then x :: y :: ys else y :: insSorted x ys

/-- `.sort()` on the mapped ids. -/
def jsSortIds (l : List JVal) : List JVal := l.foldr insSorted []

/-- `fetchCustomModels` of `src/unnamed/part_005` (lines 385–418), as a
function of the HTTP status and parsed body (`none` body = the
`response.json()` call threw): empty config throws; non-2xx throws (401/403
with the authentication message); a 2xx JSON body yields the sorted ids of
`data.data`, or of a bare array, or the empty list. -/
def p5FetchModels (cfg : CustomModelConfig) (resp : Option (Nat × Option JVal)) :
    Except FetchErr (List JVal) :=
  if cfg.baseUrl = [] ∨ cfg.apiKey = [] then Except.error FetchErr.requiredCfg
  else
    match resp with
    | none => Except.error FetchErr.netFailure
    | some (s, body) =>
      if ¬ (200 ≤ s ∧ s ≤ 299) then
        if s = 401 ∨ s = 403 then Except.error (FetchErr.authFail s)
        else Except.error (FetchErr.httpFail s)
      else
        match body with
        | none => Except.error FetchErr.bodyNotJson
        | some j =>
          match getF j dataKey with
          | some (JVal.jarr els) => Except.ok (jsSortIds (els.map idOf))
          | _ =>
            match j with
            | JVal.jarr els => Except.ok (jsSortIds (els.map idOf))
            | _ => Except.ok []

/-- `fetchCustomModels` of `src/services/aiService.ts` (lines 261–281): every
failure — non-2xx, unparsable body, or a body whose `data` member is missing
or not an array — returns the empty list; only a 2xx body with a `data` array
yields ids. -/
def aiFetchModels (resp : Option (Nat × Option JVal)) : List JVal :=
  match resp with
  | none => []
  | some (s, body) =>
    if ¬ (200 ≤ s ∧ s ≤ 299) then []
    else
      match body with
      | none => []
      | some j =>
        match getF j dataKey with
        | some (JVal.jarr els) => jsSortIds (els.map idOf)
        | _ => []

/-! ### The settings loader (`src/unnamed/part_008`, lines 95–126; claim C10) -/

/-- The name of the default provider. -/
def googleName : Chars := "google".toList

/-- The default per-task config `{ provider: 'google' }`. -/
def defaultTask : JVal := JVal.jobj [(providerKey, JVal.jstr googleName)]

/-- The default `ModelConfig`, both tasks on Google. -/
def defaultModelConfig : JVal := JVal.jobj [(d2gKey, defaultTask), (g2dKey, defaultTask)]

/-- Truthiness of a property read, as the loader's `savedConfig.provider`
tests use it (`undefined` is falsy). -/
def truthyF (j : JVal) (k : Chars) : Bool :=
  match getF j k with
  | some v => jsTruthy v
  | none => false

/-- The initializer of `ModelProvider` in `src/unnamed/part_008` as a function
of the persisted string (`none` = key absent): a failed `JSON.parse` is caught
and yields the default, as does the `TypeError` from reading `.provider` on a
parsed `null`; a truthy `provider` with a falsy `dataToGraph` migrates the old
single-provider object into both task slots (`{...savedConfig}` copies an
object without duplicate keys to an equal object, so the spread is modelled as
the object itself); a config with both task slots truthy is kept; anything
else yields the default.  The migration's write-back to localStorage is a side
effect outside this model. -/
def loadModelConfig (saved : Option Chars) : JVal :=
  match saved with
  | none => defaultModelConfig
  | some s =>
    match jParse s with
    | none => defaultModelConfig
    | some j =>
      match j with
      | JVal.jnull => defaultModelConfig
      | _ =>
        if truthyF j providerKey ∧ ¬ truthyF j d2gKey then
          JVal.jobj [(d2gKey, j), (g2dKey, j)]
        else if truthyF j d2gKey ∧ truthyF j g2dKey then j
        else defaultModelConfig

/-! ### Helper lemmas: prefixes and finders -/

theorem isPrefixOf_self_append (a b : Chars) : List.isPrefixOf a (a ++ b) = true :=
  List.isPrefixOf_iff_prefix.mpr (List.prefix_append a b)

theorem isPrefixOf_false_of_head_ne {p x : Char} {ps xs : Chars} (h : x ≠ p) :
    List.isPrefixOf (p :: ps) (x :: xs) = false := by
  simp only [List.isPrefixOf, Bool.and_eq_false_iff]
  exact Or.inl (by simpa using fun he => h he.symm)

theorem chIdx_none_iff {c : Char} {s : Chars} : chIdx c s = none ↔ ∀ x ∈ s, x ≠ c := by
  induction s with
  | nil => simp [chIdx]
  | cons a r ih =>
    by_cases ha : a = c
    · simp [chIdx, ha]
    · simp [chIdx, ha, Option.map_eq_none', ih]

theorem chIdx_cons_self (c : Char) (r : Chars) : chIdx c (c :: r) = some 0 := by
  simp [chIdx]

theorem chIdx_append_left {c : Char} {a : Chars} {i : Nat} (h : chIdx c a = some i) (b : Chars) :
    chIdx c (a ++ b) = some i := by
  induction a generalizing i with
  | nil => simp [chIdx] at h
  | cons x r ih =>
    by_cases hx : x = c
    · simpa [chIdx, hx] using h
    · simp only [chIdx, if_neg hx, Option.map_eq_some'] at h
      obtain ⟨j, hj, rfl⟩ := h
      simp [chIdx, hx, ih hj]

theorem chIdx_append_of_not {c : Char} {a : Chars} (h : ∀ x ∈ a, x ≠ c) (b : Chars) :
    chIdx c (a ++ b) = (chIdx c b).map (a.length + ·) := by
  induction a with
  | nil =>
    simp only [List.nil_append, List.length_nil]
    cases chIdx c b <;> simp
  | cons x r ih =>
    have hx : x ≠ c := h x (by simp)
    have hr : ∀ y ∈ r, y ≠ c := fun y hy => h y (by simp [hy])
    cases hcb : chIdx c b with
    | none => simp [chIdx, List.append_eq, hx, ih hr, hcb]
    | some v =>
      simp only [List.cons_append, chIdx, List.append_eq, if_neg hx, ih hr, hcb,
        Option.map_some', Option.some.injEq, List.length_cons]
      omega

theorem chIdxLast_none_iff {c : Char} {s : Chars} : chIdxLast c s = none ↔ ∀ x ∈ s, x ≠ c := by
  induction s with
  | nil => simp [chIdxLast]
  | cons a r ih =>
    cases h : chIdxLast c r with
    | some i =>
      simp only [chIdxLast, h]
      constructor
      · intro hf; cases hf
      · intro hall
        exact absurd h (by rw [ih.mpr (fun x hx => hall x (by simp [hx]))]; simp)
    | none =>
      by_cases ha : a = c
      · simp [chIdxLast, h, ha]
      · simp only [chIdxLast, h, if_neg ha, List.mem_cons, true_iff]
        intro x hx
        rcases hx with rfl | hx
        · exact ha
        · exact ih.mp h x hx

theorem chIdxLast_append_of_not {c : Char} {a : Chars} (h : ∀ x ∈ a, x ≠ c) (b : Chars) :
    chIdxLast c (a ++ b) = (chIdxLast c b).map (a.length + ·) := by
  induction a with
  | nil =>
    simp only [List.nil_append, List.length_nil]
    cases chIdxLast c b <;> simp
  | cons x r ih =>
    have hx : x ≠ c := h x (by simp)
    have hr : ∀ y ∈ r, y ≠ c := fun y hy => h y (by simp [hy])
    simp only [List.cons_append, chIdxLast, List.append_eq, ih hr, List.length_cons]
    cases chIdxLast c b with
    | none => simp [hx]
    | some v => simp only [Option.map_some', Option.some.injEq]; omega

theorem chIdxLast_append_right {c : Char} {b : Chars} (h : ∀ x ∈ b, x ≠ c) (a : Chars) :
    chIdxLast c (a ++ b) = chIdxLast c a := by
  induction a with
  | nil => simp [chIdxLast, chIdxLast_none_iff.mpr h]
  | cons x r ih => simp only [List.cons_append, chIdxLast, List.append_eq, ih]

theorem chIdxLast_concat_self (a : Chars) (c : Char) :
    chIdxLast c (a ++ [c]) = some a.length := by
  induction a with
  | nil => simp [chIdxLast]
  | cons x r ih => simp [chIdxLast, List.append_eq, ih]

theorem chIdxLast_lt_length {c : Char} {s : Chars} {i : Nat} (h : chIdxLast c s = some i) :
    i < s.length := by
  induction s generalizing i with
  | nil => simp [chIdxLast] at h
  | cons x r ih =>
    cases hr : chIdxLast c r with
    | some j =>
      simp only [chIdxLast, hr, Option.some.injEq] at h
      have := ih hr
      simp only [List.length_cons]
      omega
    | none =>
      by_cases hx : x = c <;> simp [chIdxLast, hr, hx] at h <;> simp [← h]

theorem subIdxLast_append_right {pat b : Chars} {i : Nat} (h : subIdxLast pat b = some i)
    (a : Chars) : subIdxLast pat (a ++ b) = some (a.length + i) := by
  induction a with
  | nil => simpa using h
  | cons x r ih =>
    simp only [List.cons_append, subIdxLast, List.append_eq, ih, List.length_cons]
    congr 1
    omega

theorem subIdxLast_none_of_head_notin {p : Char} {ps : Chars}
    {s : Chars} (h : ∀ x ∈ s, x ≠ p) : subIdxLast (p :: ps) s = none := by
  induction s with
  | nil => simp [subIdxLast]
  | cons a r ih =>
    have ha : a ≠ p := h a (by simp)
    have hr : ∀ x ∈ r, x ≠ p := fun x hx => h x (by simp [hx])
    simp [subIdxLast, ih hr, isPrefixOf_false_of_head_ne ha]

theorem subIdxLast_skip {p : Char} {ps : Chars}
    {a : Chars} (h : ∀ x ∈ a, x ≠ p) {t : Chars} (ht : subIdxLast (p :: ps) t = none) :
    subIdxLast (p :: ps) (a ++ t) = none := by
  induction a with
  | nil => simpa using ht
  | cons x r ih =>
    have hx : x ≠ p := h x (by simp)
    have hr : ∀ y ∈ r, y ≠ p := fun y hy => h y (by simp [hy])
    simp [subIdxLast, ih hr, isPrefixOf_false_of_head_ne hx]

theorem subIdxLast_cons_zero {pat : Chars} {x : Char} {r : Chars}
    (h : subIdxLast pat r = none) (hp : List.isPrefixOf pat (x :: r) = true) :
    subIdxLast pat (x :: r) = some 0 := by
  simp [subIdxLast, h, hp]

theorem subIdxLast_cons_none {pat : Chars} {x : Char} {r : Chars}
    (h : subIdxLast pat r = none) (hp : List.isPrefixOf pat (x :: r) = false) :
    subIdxLast pat (x :: r) = none := by
  simp [subIdxLast, h, hp]

theorem isPrefixOf_eq_false {a b : Chars} (h : ¬ a <+: b) : List.isPrefixOf a b = false := by
  rw [← Bool.not_eq_true, List.isPrefixOf_iff_prefix]
  exact h

theorem fj_not_prefix_head {x : Char} {xs : Chars} (h : x ≠ btk) :
    List.isPrefixOf fenceJson (x :: xs) = false := by
  simpa [fenceJson] using @isPrefixOf_false_of_head_ne btk x [btk, btk, 'j', 's', 'o', 'n'] xs h

theorem f3_not_prefix_head {x : Char} {xs : Chars} (h : x ≠ btk) :
    List.isPrefixOf fence3 (x :: xs) = false := by
  simpa [fence3] using @isPrefixOf_false_of_head_ne btk x [btk, btk] xs h

theorem fj_not_prefix_b1 {p2 : Chars} (h : ∀ x ∈ p2, x ≠ btk) :
    List.isPrefixOf fenceJson (btk :: p2) = false := by
  apply isPrefixOf_eq_false
  intro hp
  simp only [fenceJson] at hp
  cases p2 with
  | nil => simpa using hp.length_le
  | cons c r =>
    obtain ⟨-, hp⟩ := List.cons_prefix_cons.mp hp
    obtain ⟨hbc, -⟩ := List.cons_prefix_cons.mp hp
    exact h c (by simp) hbc.symm

theorem fj_not_prefix_b2 {p2 : Chars} (h : ∀ x ∈ p2, x ≠ btk) :
    List.isPrefixOf fenceJson (btk :: btk :: p2) = false := by
  apply isPrefixOf_eq_false
  intro hp
  simp only [fenceJson] at hp
  obtain ⟨-, hp⟩ := List.cons_prefix_cons.mp hp
  obtain ⟨-, hp⟩ := List.cons_prefix_cons.mp hp
  cases p2 with
  | nil => simpa using hp.length_le
  | cons c r =>
    obtain ⟨hbc, -⟩ := List.cons_prefix_cons.mp hp
    exact h c (by simp) hbc.symm

theorem fj_not_prefix_b3 {p2 : Chars} (hj : List.isPrefixOf ['j', 's', 'o', 'n'] p2 = false) :
    List.isPrefixOf fenceJson (btk :: btk :: btk :: p2) = false := by
  apply isPrefixOf_eq_false
  intro hp
  simp only [fenceJson] at hp
  obtain ⟨-, hp⟩ := List.cons_prefix_cons.mp hp
  obtain ⟨-, hp⟩ := List.cons_prefix_cons.mp hp
  obtain ⟨-, hp⟩ := List.cons_prefix_cons.mp hp
  rw [List.isPrefixOf_iff_prefix.mpr hp] at hj
  cases hj

theorem fj_not_prefix_bj {xs : Chars} : List.isPrefixOf fenceJson (btk :: 'j' :: xs) = false := by
  apply isPrefixOf_eq_false
  intro hp
  simp only [fenceJson] at hp
  obtain ⟨-, hp⟩ := List.cons_prefix_cons.mp hp
  obtain ⟨hbj, -⟩ := List.cons_prefix_cons.mp hp
  exact absurd hbj (by decide)

theorem fj_not_prefix_bbj {xs : Chars} :
    List.isPrefixOf fenceJson (btk :: btk :: 'j' :: xs) = false := by
  apply isPrefixOf_eq_false
  intro hp
  simp only [fenceJson] at hp
  obtain ⟨-, hp⟩ := List.cons_prefix_cons.mp hp
  obtain ⟨-, hp⟩ := List.cons_prefix_cons.mp hp
  obtain ⟨hbj, -⟩ := List.cons_prefix_cons.mp hp
  exact absurd hbj (by decide)

theorem f3_not_prefix_b1 {p2 : Chars} (h : ∀ x ∈ p2, x ≠ btk) :
    List.isPrefixOf fence3 (btk :: p2) = false := by
  apply isPrefixOf_eq_false
  intro hp
  simp only [fence3] at hp
  cases p2 with
  | nil => simpa using hp.length_le
  | cons c r =>
    obtain ⟨-, hp⟩ := List.cons_prefix_cons.mp hp
    obtain ⟨hbc, -⟩ := List.cons_prefix_cons.mp hp
    exact h c (by simp) hbc.symm

theorem f3_not_prefix_b2 {p2 : Chars} (h : ∀ x ∈ p2, x ≠ btk) :
    List.isPrefixOf fence3 (btk :: btk :: p2) = false := by
  apply isPrefixOf_eq_false
  intro hp
  simp only [fence3] at hp
  obtain ⟨-, hp⟩ := List.cons_prefix_cons.mp hp
  obtain ⟨-, hp⟩ := List.cons_prefix_cons.mp hp
  cases p2 with
  | nil => simpa using hp.length_le
  | cons c r =>
    obtain ⟨hbc, -⟩ := List.cons_prefix_cons.mp hp
    exact h c (by simp) hbc.symm

theorem subIdxLast_fj_strip3 {p2 : Chars} (h : ∀ x ∈ p2, x ≠ btk)
    (hj : List.isPrefixOf ['j', 's', 'o', 'n'] p2 = false) :
    subIdxLast fenceJson (fence3 ++ p2) = none := by
  have h0 : subIdxLast fenceJson p2 = none :=
    @subIdxLast_none_of_head_notin btk [btk, btk, 'j', 's', 'o', 'n'] p2 h
  have h1 : subIdxLast fenceJson (btk :: p2) = none :=
    subIdxLast_cons_none h0 (fj_not_prefix_b1 h)
  have h2 : subIdxLast fenceJson (btk :: btk :: p2) = none :=
    subIdxLast_cons_none h1 (fj_not_prefix_b2 h)
  have h3 : subIdxLast fenceJson (btk :: btk :: btk :: p2) = none :=
    subIdxLast_cons_none h2 (fj_not_prefix_b3 hj)
  simpa [fence3] using h3

theorem subIdxLast_f3_here {p2 : Chars} (h : ∀ x ∈ p2, x ≠ btk) :
    subIdxLast fence3 (fence3 ++ p2) = some 0 := by
  have h0 : subIdxLast fence3 p2 = none := @subIdxLast_none_of_head_notin btk [btk, btk] p2 h
  have h1 : subIdxLast fence3 (btk :: p2) = none :=
    subIdxLast_cons_none h0 (f3_not_prefix_b1 h)
  have h2 : subIdxLast fence3 (btk :: btk :: p2) = none :=
    subIdxLast_cons_none h1 (f3_not_prefix_b2 h)
  have h3 : subIdxLast fence3 (btk :: btk :: btk :: p2) = some 0 :=
    subIdxLast_cons_zero h2 (by simpa [fence3] using isPrefixOf_self_append fence3 p2)
  simpa [fence3] using h3

theorem subIdxLast_fj_here {mid p2 : Chars} (hm : ∀ x ∈ mid, x ≠ btk)
    (hp : ∀ x ∈ p2, x ≠ btk)
    (hj : List.isPrefixOf ['j', 's', 'o', 'n'] p2 = false) :
    subIdxLast fenceJson (fenceJson ++ (mid ++ (fence3 ++ p2))) = some 0 := by
  have hRn : subIdxLast fenceJson (mid ++ (fence3 ++ p2)) = none :=
    subIdxLast_skip hm (subIdxLast_fj_strip3 hp hj)
  have s1 : subIdxLast fenceJson ('n' :: (mid ++ (fence3 ++ p2))) = none :=
    subIdxLast_cons_none hRn (fj_not_prefix_head (by decide))
  have s2 : subIdxLast fenceJson ('o' :: 'n' :: (mid ++ (fence3 ++ p2))) = none :=
    subIdxLast_cons_none s1 (fj_not_prefix_head (by decide))
  have s3 : subIdxLast fenceJson ('s' :: 'o' :: 'n' :: (mid ++ (fence3 ++ p2))) = none :=
    subIdxLast_cons_none s2 (fj_not_prefix_head (by decide))
  have s4 : subIdxLast fenceJson ('j' :: 's' :: 'o' :: 'n' :: (mid ++ (fence3 ++ p2))) = none :=
    subIdxLast_cons_none s3 (fj_not_prefix_head (by decide))
  have s5 : subIdxLast fenceJson (btk :: 'j' :: 's' :: 'o' :: 'n' :: (mid ++ (fence3 ++ p2)))
      = none := subIdxLast_cons_none s4 fj_not_prefix_bj
  have s6 : subIdxLast fenceJson
      (btk :: btk :: 'j' :: 's' :: 'o' :: 'n' :: (mid ++ (fence3 ++ p2))) = none :=
    subIdxLast_cons_none s5 fj_not_prefix_bbj
  have hfin : subIdxLast fenceJson
      (btk :: btk :: btk :: 'j' :: 's' :: 'o' :: 'n' :: (mid ++ (fence3 ++ p2))) = some 0 :=
    subIdxLast_cons_zero s6
      (by simpa [fenceJson] using isPrefixOf_self_append fenceJson (mid ++ (fence3 ++ p2)))
  simpa [fenceJson] using hfin

/-! ### Helper lemmas: the fence regex scanner -/

theorem fenceTail_skip {a : Chars} (h : ∀ x ∈ a, x ≠ btk) (t : Chars) :
    fenceTail (a ++ t) = (fenceTail t).map (a ++ ·) := by
  induction a with
  | nil =>
    simp only [List.nil_append]
    cases fenceTail t <;> simp
  | cons x r ih =>
    have hx : x ≠ btk := h x (by simp)
    have hr : ∀ y ∈ r, y ≠ btk := fun y hy => h y (by simp [hy])
    cases hft : fenceTail t with
    | none => simp [fenceTail, f3_not_prefix_head hx, ih hr, hft]
    | some g => simp [fenceTail, f3_not_prefix_head hx, ih hr, hft]

theorem fenceTail_here (t : Chars) : fenceTail (fence3 ++ t) = some [] := by
  have hpre : List.isPrefixOf fence3 (btk :: btk :: btk :: t) = true := by
    simpa [fence3] using isPrefixOf_self_append fence3 t
  rw [show fence3 ++ t = btk :: btk :: btk :: t by simp [fence3]]
  simp [fenceTail, hpre]

theorem fenceScan_skip {a : Chars} (h : ∀ x ∈ a, x ≠ btk) (t : Chars) :
    fenceScan (a ++ t) = fenceScan t := by
  induction a with
  | nil => simp
  | cons x r ih =>
    have hx : x ≠ btk := h x (by simp)
    have hr : ∀ y ∈ r, y ≠ btk := fun y hy => h y (by simp [hy])
    simp [fenceScan, fj_not_prefix_head hx, ih hr]

theorem fenceScan_here (t : Chars) : fenceScan (fenceJson ++ t) = fenceTail t := by
  have hpre : List.isPrefixOf fenceJson
      (btk :: btk :: btk :: 'j' :: 's' :: 'o' :: 'n' :: t) = true := by
    simpa [fenceJson] using isPrefixOf_self_append fenceJson t
  rw [show fenceJson ++ t = btk :: btk :: btk :: 'j' :: 's' :: 'o' :: 'n' :: t by simp [fenceJson]]
  simp [fenceScan, hpre, List.drop_succ_cons]

theorem fenceScan_none_of_not_contained {s : Chars} (h : ¬ fenceJson <:+: s) : fenceScan s = none := by
  induction s with
  | nil => rfl
  | cons c r ih =>
    have h1 : List.isPrefixOf fenceJson (c :: r) = false :=
      isPrefixOf_eq_false fun hp => h hp.isInfix
    have h2 : ¬ fenceJson <:+: r := fun hi => h (List.infix_cons hi)
    simp [fenceScan, h1, ih h2]

theorem fenceScan_none_of_nobtk {s : Chars} (h : ∀ x ∈ s, x ≠ btk) : fenceScan s = none := by
  induction s with
  | nil => rfl
  | cons c r ih =>
    have hc : c ≠ btk := h c (by simp)
    have hr : ∀ y ∈ r, y ≠ btk := fun y hy => h y (by simp [hy])
    simp [fenceScan, fj_not_prefix_head hc, ih hr]

theorem subIdxLast_none_of_not_contained {pat s : Chars} {p : Char} {ps : Chars}
    (hpat : pat = p :: ps) (h : ¬ pat <:+: s) : subIdxLast pat s = none := by
  subst hpat
  induction s with
  | nil => simp [subIdxLast]
  | cons c r ih =>
    have h1 : List.isPrefixOf (p :: ps) (c :: r) = false :=
      isPrefixOf_eq_false fun hp => h hp.isInfix
    have h2 : ¬ (p :: ps) <:+: r := fun hi => h (List.infix_cons hi)
    simp [subIdxLast, ih h2, h1]

/-! ### Helper lemmas: trim and substring -/

theorem mem_of_mem_jsTrim {c : Char} {s : Chars} (h : c ∈ jsTrim s) : c ∈ s := by
  unfold jsTrim at h
  rw [List.mem_reverse] at h
  have h1 : c ∈ (s.dropWhile isJsWs).reverse := List.Sublist.mem h (List.dropWhile_sublist _)
  rw [List.mem_reverse] at h1
  exact List.Sublist.mem h1 (List.dropWhile_sublist _)

theorem jsTrim_decomp (s : Chars) :
    ∃ a b, s = a ++ jsTrim s ++ b ∧ (∀ c ∈ a, isJsWs c = true) ∧ (∀ c ∈ b, isJsWs c = true) := by
  refine ⟨s.takeWhile isJsWs, ((s.dropWhile isJsWs).reverse.takeWhile isJsWs).reverse,
    ?_, ?_, ?_⟩
  · conv_lhs => rw [← List.takeWhile_append_dropWhile isJsWs s]
    rw [List.append_assoc]
    congr 1
    calc
      s.dropWhile isJsWs = ((s.dropWhile isJsWs).reverse).reverse := by simp
      _ = ((s.dropWhile isJsWs).reverse.takeWhile isJsWs
            ++ (s.dropWhile isJsWs).reverse.dropWhile isJsWs).reverse := by
          rw [List.takeWhile_append_dropWhile]
      _ = ((s.dropWhile isJsWs).reverse.dropWhile isJsWs).reverse
            ++ ((s.dropWhile isJsWs).reverse.takeWhile isJsWs).reverse := by
          rw [List.reverse_append]
      _ = jsTrim s ++ ((s.dropWhile isJsWs).reverse.takeWhile isJsWs).reverse := rfl
  · exact fun c hc => List.mem_takeWhile_imp hc
  · intro c hc
    rw [List.mem_reverse] at hc
    exact List.mem_takeWhile_imp hc

theorem jsClamp_eq {x : Int} {n : Nat} (h0 : 0 ≤ x) (hn : x ≤ (n : Int)) :
    jsClamp x n = x.toNat := by
  unfold jsClamp
  omega

theorem jsSubstring_mid (a b c : Chars) :
    jsSubstring (a ++ b ++ c) a.length ((a.length : Int) + b.length) = b := by
  simp only [jsSubstring]
  have hL : (a ++ b ++ c).length = a.length + b.length + c.length := by simp; omega
  have h1 : jsClamp (a.length) (a ++ b ++ c).length = a.length := by unfold jsClamp; omega
  have h2 : jsClamp ((a.length : Int) + b.length) (a ++ b ++ c).length = a.length + b.length := by
    unfold jsClamp; omega
  rw [h1, h2]
  have h3 : min a.length (a.length + b.length) = a.length := by omega
  rw [h3]
  have h4 : max a.length (a.length + b.length) - a.length = b.length := by omega
  rw [h4, List.append_assoc, List.drop_left, List.take_left]

theorem jsSubstring_zero_neg (s : Chars) : jsSubstring s 0 (-1) = [] := by
  simp only [jsSubstring]
  have h1 : jsClamp 0 s.length = 0 := by unfold jsClamp; omega
  have h2 : jsClamp (-1) s.length = 0 := by unfold jsClamp; omega
  rw [h1, h2]
  simp

/-! ### Evaluating the extraction functions on a well-formed fenced text -/

theorem fenceGroup_fenced {p1 mid p2 : Chars}
    (h1 : ∀ x ∈ p1, x ≠ btk) (h2 : ∀ x ∈ mid, x ≠ btk) (h3 : ∀ x ∈ p2, x ≠ btk) :
    fenceGroup (p1 ++ (fenceJson ++ (mid ++ (fence3 ++ p2)))) = some (jsTrim mid) := by
  unfold fenceGroup
  rw [fenceScan_skip h1, fenceScan_here, fenceTail_skip h2, fenceTail_here]
  simp

theorem extractJsonString_fenced {p1 mid p2 : Chars}
    (h1 : ∀ x ∈ p1, x ≠ btk) (h2 : ∀ x ∈ mid, x ≠ btk) (h3 : ∀ x ∈ p2, x ≠ btk)
    (hne : jsTrim mid ≠ []) :
    extractJsonString (p1 ++ (fenceJson ++ (mid ++ (fence3 ++ p2)))) = some (jsTrim mid) := by
  have htne : p1 ++ (fenceJson ++ (mid ++ (fence3 ++ p2))) ≠ [] := by simp [fenceJson]
  unfold extractJsonString
  rw [if_neg (by simpa using htne), fenceGroup_fenced h1 h2 h3]
  simp [hne]

theorem jsSubstring_mid' (a b c : Chars) {x y : Int}
    (hx : x = (a.length : Int)) (hy : y = (a.length : Int) + b.length) :
    jsSubstring (a ++ b ++ c) x y = b := by
  rw [hx, hy]
  exact jsSubstring_mid a b c

theorem sliceFence_fenced {p1 mid p2 : Chars}
    (h2 : ∀ x ∈ mid, x ≠ btk) (h3 : ∀ x ∈ p2, x ≠ btk)
    (hj : List.isPrefixOf ['j', 's', 'o', 'n'] p2 = false) :
    sliceFence (p1 ++ (fenceJson ++ (mid ++ (fence3 ++ p2)))) = mid := by
  have hsi : subIdxLast fenceJson (p1 ++ (fenceJson ++ (mid ++ (fence3 ++ p2))))
      = some p1.length := by
    simpa using subIdxLast_append_right (subIdxLast_fj_here h2 h3 hj) p1
  have hei : subIdxLast fence3 (p1 ++ (fenceJson ++ (mid ++ (fence3 ++ p2))))
      = some (p1.length + 7 + mid.length) := by
    have h := subIdxLast_append_right (subIdxLast_f3_here h3) (p1 ++ fenceJson ++ mid)
    have hlen : (p1 ++ fenceJson ++ mid).length = p1.length + 7 + mid.length := by
      simp [fenceJson]
      omega
    rw [hlen] at h
    simpa [List.append_assoc] using h
  simp only [sliceFence, hsi, hei, jsIdxInt]
  rw [if_pos (by omega : ((p1.length : Int)) ≠ -1)]
  rw [if_pos (by push_cast; omega :
    ((p1.length + 7 + mid.length : Nat) : Int) > ((p1.length : Nat) : Int))]
  have harg : jsSubstring ((p1 ++ fenceJson) ++ mid ++ (fence3 ++ p2))
      ((p1 ++ fenceJson).length) (((p1 ++ fenceJson).length : Int) + mid.length) = mid :=
    jsSubstring_mid _ _ _
  have hsh : (p1 ++ fenceJson) ++ mid ++ (fence3 ++ p2)
      = p1 ++ (fenceJson ++ (mid ++ (fence3 ++ p2))) := by simp [List.append_assoc]
  have hlen2 : ((p1 ++ fenceJson).length : Int) = (p1.length : Int) + 7 := by
    simp [fenceJson]
  rw [hsh, hlen2] at harg
  have he1 : ((p1.length : Int)) + 7 = (p1.length : Int) + 7 := rfl
  have he2 : (((p1.length + 7 + mid.length : Nat)) : Int)
      = ((p1.length : Int) + 7) + (mid.length : Int) := by push_cast; ring
  rw [he2]
  exact harg

theorem sliceBraces_wrapped {wsl body wsr : Chars}
    (hwl : ∀ c ∈ wsl, isJsWs c = true) (hwr : ∀ c ∈ wsr, isJsWs c = true) :
    sliceBraces (wsl ++ (lbr :: body ++ [rbr]) ++ wsr) = lbr :: body ++ [rbr] := by
  have hwl' : ∀ c ∈ wsl, c ≠ lbr := by
    intro c hc he
    subst he
    exact absurd (hwl _ hc) (by decide)
  have hwr' : ∀ c ∈ wsr, c ≠ rbr := by
    intro c hc he
    subst he
    exact absurd (hwr _ hc) (by decide)
  have hfb : chIdx lbr (wsl ++ (lbr :: body ++ [rbr]) ++ wsr) = some wsl.length := by
    rw [List.append_assoc]
    rw [chIdx_append_of_not hwl']
    simp [chIdx_cons_self]
  have hlb : chIdxLast rbr (wsl ++ (lbr :: body ++ [rbr]) ++ wsr)
      = some (wsl.length + body.length + 1) := by
    rw [chIdxLast_append_right hwr']
    have : wsl ++ (lbr :: body ++ [rbr]) = (wsl ++ (lbr :: body)) ++ [rbr] := by
      simp [List.append_assoc]
    rw [this, chIdxLast_concat_self]
    simp
    omega
  simp only [sliceBraces, hfb, hlb, jsIdxInt]
  rw [if_pos]
  · exact jsSubstring_mid' wsl (lbr :: body ++ [rbr]) wsr (by push_cast; ring)
      (by push_cast; simp; push_cast; ring)
  · constructor
    · omega
    · push_cast; omega

theorem extractNoFence_none {ts : Chars} (hb : ∀ c ∈ ts, c ≠ lbr) (hk : ∀ c ∈ ts, c ≠ lbk) :
    extractNoFence ts = none := by
  simp only [extractNoFence, chIdx_none_iff.mpr hb, chIdx_none_iff.mpr hk, jsIdxInt]
  rw [if_neg (by simp)]
  cases ht : jsTrim ts with
  | nil => rfl
  | cons c r =>
    have hc : c ∈ ts := mem_of_mem_jsTrim (ht ▸ List.mem_cons_self c r)
    simp [hb c hc, hk c hc]

theorem sliceCandidate_no_fence_no_brace {ts : Chars}
    (hb : ∀ c ∈ ts, c ≠ lbr) (hf : ¬ fenceJson <:+: ts) :
    sliceCandidate ts = ts := by
  have hn : subIdxLast fenceJson ts = none :=
    @subIdxLast_none_of_not_contained fenceJson ts btk [btk, btk, 'j', 's', 'o', 'n'] rfl hf
  have h1 : sliceFence ts = ts := by
    simp only [sliceFence, hn, jsIdxInt]
    rw [if_neg (by simp)]
  have h2 : sliceBraces ts = ts := by
    simp only [sliceBraces, chIdx_none_iff.mpr hb, jsIdxInt]
    rw [if_neg (by simp)]
  rw [sliceCandidate, h1, h2]

theorem extractNoFence_span {p1 body p2 : Chars} {op cl : Char}
    (hoc : (op = lbr ∧ cl = rbr) ∨ (op = lbk ∧ cl = rbk))
    (hp1 : ∀ c ∈ p1, c ≠ lbr ∧ c ≠ rbr ∧ c ≠ lbk ∧ c ≠ rbk)
    (hp2 : ∀ c ∈ p2, c ≠ lbr ∧ c ≠ rbr ∧ c ≠ lbk ∧ c ≠ rbk) :
    extractNoFence (p1 ++ (op :: body ++ [cl]) ++ p2) = some (op :: body ++ [cl]) := by
  have hlen : (op :: body ++ [cl]).length = body.length + 2 := by simp
  rcases hoc with ⟨rfl, rfl⟩ | ⟨rfl, rfl⟩
  · have hfb : chIdx lbr (p1 ++ (lbr :: body ++ [rbr]) ++ p2) = some p1.length := by
      rw [List.append_assoc, chIdx_append_of_not (fun c hc => (hp1 c hc).1)]
      simp [chIdx]
    have hlb : chIdxLast rbr (p1 ++ (lbr :: body ++ [rbr]) ++ p2)
        = some (p1.length + body.length + 1) := by
      rw [chIdxLast_append_right (fun c hc => (hp2 c hc).2.1)]
      have hsh : p1 ++ (lbr :: body ++ [rbr]) = (p1 ++ (lbr :: body)) ++ [rbr] := by
        simp [List.append_assoc]
      rw [hsh, chIdxLast_concat_self]
      simp
      omega
    have hbk : chIdx lbk (p1 ++ (lbr :: body ++ [rbr]) ++ p2)
        = (chIdx lbk ((lbr :: body ++ [rbr]) ++ p2)).map (p1.length + ·) := by
      rw [List.append_assoc, chIdx_append_of_not (fun c hc => (hp1 c hc).2.2.1)]
    have hkb : chIdxLast rbk (p1 ++ (lbr :: body ++ [rbr]) ++ p2)
        = (chIdxLast rbk (lbr :: body ++ [rbr])).map (p1.length + ·) := by
      rw [chIdxLast_append_right (fun c hc => (hp2 c hc).2.2.2),
        chIdxLast_append_of_not (fun c hc => (hp1 c hc).2.2.2)]
    cases hk : chIdx lbk ((lbr :: body ++ [rbr]) ++ p2) <;>
      cases hq : chIdxLast rbk (lbr :: body ++ [rbr]) <;>
      [skip; (have hqb : _ < (lbr :: body ++ [rbr]).length := chIdxLast_lt_length hq);
       skip; (have hqb : _ < (lbr :: body ++ [rbr]).length := chIdxLast_lt_length hq)] <;>
      simp only [extractNoFence, hfb, hlb, hbk, hkb, hk, hq, Option.map_none',
        Option.map_some', jsIdxInt] <;>
      split_ifs <;>
      first
        | (refine congrArg some (jsSubstring_mid' p1 _ p2 ?_ ?_) <;>
            (push_cast; try (first | omega | (exfalso; assumption)); done))
        | (exfalso; first | omega | assumption)
  · have hfk : chIdx lbk (p1 ++ (lbk :: body ++ [rbk]) ++ p2) = some p1.length := by
      rw [List.append_assoc, chIdx_append_of_not (fun c hc => (hp1 c hc).2.2.1)]
      simp [chIdx]
    have hlk : chIdxLast rbk (p1 ++ (lbk :: body ++ [rbk]) ++ p2)
        = some (p1.length + body.length + 1) := by
      rw [chIdxLast_append_right (fun c hc => (hp2 c hc).2.2.2)]
      have hsh : p1 ++ (lbk :: body ++ [rbk]) = (p1 ++ (lbk :: body)) ++ [rbk] := by
        simp [List.append_assoc]
      rw [hsh, chIdxLast_concat_self]
      simp
      omega
    have hbr : chIdx lbr (p1 ++ (lbk :: body ++ [rbk]) ++ p2)
        = (chIdx lbr ((lbk :: body ++ [rbk]) ++ p2)).map (p1.length + ·) := by
      rw [List.append_assoc, chIdx_append_of_not (fun c hc => (hp1 c hc).1)]
    have hrr : chIdxLast rbr (p1 ++ (lbk :: body ++ [rbk]) ++ p2)
        = (chIdxLast rbr (lbk :: body ++ [rbk])).map (p1.length + ·) := by
      rw [chIdxLast_append_right (fun c hc => (hp2 c hc).2.1),
        chIdxLast_append_of_not (fun c hc => (hp1 c hc).2.1)]
    cases hk : chIdx lbr ((lbk :: body ++ [rbk]) ++ p2) <;>
      cases hq : chIdxLast rbr (lbk :: body ++ [rbk]) <;>
      [skip; (have hqb : _ < (lbk :: body ++ [rbk]).length := chIdxLast_lt_length hq);
       skip; (have hqb : _ < (lbk :: body ++ [rbk]).length := chIdxLast_lt_length hq)] <;>
      simp only [extractNoFence, hfk, hlk, hbr, hrr, hk, hq, Option.map_none',
        Option.map_some', jsIdxInt] <;>
      split_ifs <;>
      first
        | (refine congrArg some (jsSubstring_mid' p1 _ p2 ?_ ?_) <;>
            (push_cast; try (first | omega | (exfalso; assumption)); done))
        | (exfalso; first | omega | assumption)

/-! ### Claims C7, C2, C6 -/

/-- Claim C7, counterexample: the claim is false on both files.  In
`aiService.ts` a custom provider whose config has empty `baseUrl`, `apiKey`
and `model` is not rejected — the request is prepared (and would be fetched)
with the empty base URL.  In `part_005` a custom provider with the config
object missing entirely falls through to the Google path and issues a Google
request instead of failing with a configuration error. -/
theorem c7_counterexample :
    aiDataGate ⟨ProviderKind.custom, some ⟨[], [], []⟩⟩
        = Except.ok (RequestTarget.customReq chatPath)
    ∧ p5DataGate ⟨ProviderKind.custom, none⟩ = Except.ok RequestTarget.googleReq :=
  ⟨rfl, rfl⟩

/-- Claim C7 (amended): the fail-fast validation each file actually performs,
characterized exactly.  `part_005` raises its configuration error precisely
when the custom config object is present with some empty field (a missing
object silently selects Google); `aiService.ts` raises its configuration
error precisely when the custom config object is missing (present configs
are used unvalidated, so an all-empty config still issues a request). -/
theorem c7_gate_characterization (cfg : ProviderConfig) :
    ((∃ e, p5DataGate cfg = Except.error e) ↔
      (cfg.provider = ProviderKind.custom ∧ ∃ c, cfg.custom = some c ∧
        (c.baseUrl = [] ∨ c.apiKey = [] ∨ c.model = [])))
    ∧ ((∃ e, aiDataGate cfg = Except.error e) ↔
      (cfg.provider = ProviderKind.custom ∧ cfg.custom = none)) := by
  obtain ⟨pk, oc⟩ := cfg
  constructor
  · cases pk with
    | google => cases oc <;> simp [p5DataGate]
    | custom =>
      cases oc with
      | none => simp [p5DataGate]
      | some c =>
        by_cases hc : c.baseUrl = [] ∨ c.apiKey = [] ∨ c.model = [] <;>
          simp [p5DataGate, hc]
  · cases pk with
    | google => cases oc <;> simp [aiDataGate]
    | custom => cases oc <;> simp [aiDataGate]

/-- Claim C2, counterexample: a response of just `isChart: false` with no
`reason` is successfully mapped by `analyzeGraphImage` of `aiService.ts`,
and the mapped result has no `reason` member — the claimed invariant
("whenever `isChart` is false, `reason` is present") is not enforced. -/
theorem c2_counterexample :
    aiAnalyzeImage ("\x7b\"isChart\":false\x7d".toList)
        = Except.ok (JVal.jobj [(isChartKey, JVal.jbool false)])
    ∧ getF (JVal.jobj [(isChartKey, JVal.jbool false)]) reasonKey = none :=
  ⟨rfl, rfl⟩

/-- Claim C2 (amended): the only shape check either `analyzeGraphImage`
mapper performs is that the parsed result carries a boolean `isChart`;
every successfully mapped result has one, and nothing about `reason`,
`report` or `data` is checked. -/
theorem c2_isChart_check :
    (∀ raw j, aiAnalyzeImage raw = Except.ok j →
      ∃ b, getF j isChartKey = some (JVal.jbool b))
    ∧ (∀ raw j, p6AnalyzeImage raw = Except.ok j →
      ∃ b, getF j isChartKey = some (JVal.jbool b)) := by
  constructor
  · intro raw j h
    unfold aiAnalyzeImage at h
    cases hp : parseJsonResponseFn raw with
    | error e => rw [hp] at h; simp at h
    | ok j0 =>
      rw [hp] at h
      dsimp only at h
      cases hg : getF j0 isChartKey with
      | none => rw [hg] at h; simp at h
      | some w =>
        rw [hg] at h
        rcases w with _ | b | ⟨m, p⟩ | s | xs | fs <;> simp at h
        subst h
        exact ⟨b, hg⟩
  · intro raw j h
    unfold p6AnalyzeImage at h
    cases hp : jParse (jsTrim raw) with
    | none => rw [hp] at h; simp at h
    | some j0 =>
      rw [hp] at h
      dsimp only at h
      cases hg : getF j0 isChartKey with
      | none => rw [hg] at h; simp at h
      | some w =>
        rw [hg] at h
        rcases w with _ | b | ⟨m, p⟩ | s | xs | fs <;> simp at h
        subst h
        exact ⟨b, hg⟩

/-- Claim C2, witness: the amended theorem applied to a concrete mapped
response. -/
theorem c2_witness :
    ∃ b, getF (JVal.jobj [(isChartKey, JVal.jbool true)]) isChartKey
      = some (JVal.jbool b) :=
  c2_isChart_check.1 ("\x7b\"isChart\":true\x7d".toList)
    (JVal.jobj [(isChartKey, JVal.jbool true)]) rfl

/-- Claim C6, counterexample: a parsed response with an empty `suggestions`
array maps to a *successful* result with an empty suggestions array — the
claimed "never an empty success" is false (`suggestions || []` keeps the
empty array, and nothing checks non-emptiness). -/
theorem c6_counterexample :
    aiAnalyzeData ("\x7b\"suggestions\":[]\x7d".toList)
      = Except.ok (([] : Chars), JVal.jarr []) :=
  rfl

/-- Claim C6 (amended): `analyzeDataForGraphSuggestions` returns either its
classified invalid-format error or a success carrying the report prefix and
whatever the parsed response's `suggestions` member holds (defaulting to an
empty array), with no non-emptiness check; `part_005`'s pipeline likewise
succeeds exactly when extraction and parsing succeed, passing the parsed
object through unvalidated. -/
theorem c6_suggestions_passthrough :
    (∀ raw j, parseJsonResponseFn raw = Except.ok j →
      aiAnalyzeData raw = Except.ok (reportPrefix raw, suggestionsOf j))
    ∧ (∀ raw, (∃ e, parseJsonResponseFn raw = Except.error e) →
      aiAnalyzeData raw = Except.error AiErr.invalidFormat)
    ∧ (∀ raw j, p5MapResponse raw = Except.ok j ↔
      ∃ s, extractJsonString raw = some s ∧ jParse s = some j) := by
  refine ⟨?_, ?_, ?_⟩
  · intro raw j h
    unfold aiAnalyzeData
    rw [h]
  · rintro raw ⟨e, h⟩
    unfold aiAnalyzeData
    rw [h]
  · intro raw j
    constructor
    · intro h
      unfold p5MapResponse at h
      cases he : extractJsonString raw with
      | none => rw [he] at h; simp at h
      | some s =>
        rw [he] at h
        dsimp only at h
        cases hj : jParse s with
        | none => rw [hj] at h; simp at h
        | some j0 =>
          rw [hj] at h
          simp at h
          exact ⟨s, rfl, by rw [hj, h]⟩
    · rintro ⟨s, hs, hj⟩
      unfold p5MapResponse
      rw [hs]
      dsimp only
      rw [hj]

/-- Claim C6, witness: the amended theorem applied to a concrete parsed
response with one suggestion. -/
theorem c6_witness :
    aiAnalyzeData ("\x7b\"suggestions\":[\"x\"]\x7d".toList)
      = Except.ok (reportPrefix ("\x7b\"suggestions\":[\"x\"]\x7d".toList),
          suggestionsOf (JVal.jobj [(sugKey, JVal.jarr [JVal.jstr ['x']])])) :=
  c6_suggestions_passthrough.1 ("\x7b\"suggestions\":[\"x\"]\x7d".toList)
    (JVal.jobj [(sugKey, JVal.jarr [JVal.jstr ['x']])]) rfl

/-! ### Claims C8, C9, C10 -/

/-- Claim C8, counterexample: `aiService.ts`'s `testCustomModelConnection`
returns plain `false` for a 401 (auth failure), a 404 (wrong endpoint), a
503 (server error) and a network failure alike — it does not distinguish
failure categories as claimed.  Only `part_005` does. -/
theorem c8_counterexample :
    aiTestConn (some 401) = false ∧ aiTestConn (some 404) = false
    ∧ aiTestConn (some 503) = false ∧ aiTestConn none = false :=
  ⟨rfl, rfl, rfl, rfl⟩

/-- Claim C8 (amended): `part_005`'s connection test distinguishes outcome
categories (2xx success, 401/403 auth, 404 endpoint, other HTTP, thrown
network error), while `aiService.ts`'s test collapses everything to a single
boolean that is true exactly on a 2xx response. -/
theorem c8_classification (cfg : CustomModelConfig)
    (hcfg : ¬ (cfg.baseUrl = [] ∨ cfg.apiKey = [] ∨ cfg.model = [])) :
    (∀ s, 200 ≤ s ∧ s ≤ 299 → p5TestConn cfg (some s) = TestOutcome.okTest)
    ∧ (∀ s, s = 401 ∨ s = 403 → p5TestConn cfg (some s) = TestOutcome.authFail s)
    ∧ p5TestConn cfg (some 404) = TestOutcome.endpointMissing 404
    ∧ (∀ s, ¬ (200 ≤ s ∧ s ≤ 299) → ¬ (s = 401 ∨ s = 403) → s ≠ 404 →
        p5TestConn cfg (some s) = TestOutcome.connFail s)
    ∧ p5TestConn cfg none = TestOutcome.rawFailure
    ∧ (∀ r, aiTestConn r = true ↔ ∃ s, r = some s ∧ 200 ≤ s ∧ s ≤ 299) := by
  refine ⟨?_, ?_, ?_, ?_, ?_, ?_⟩
  · intro s hs
    simp [p5TestConn, hcfg, hs]
  · intro s hs
    have h2 : ¬ (200 ≤ s ∧ s ≤ 299) := by rcases hs with rfl | rfl <;> omega
    have h4 : s ≠ 404 := by rcases hs with rfl | rfl <;> omega
    simp [p5TestConn, hcfg, h2, hs, h4]
  · simp [p5TestConn, hcfg]
  · intro s h1 h2 h3
    simp [p5TestConn, hcfg, h1, h2, h3]
  · simp [p5TestConn, hcfg]
  · intro r
    cases r with
    | none => simp [aiTestConn]
    | some s => simp [aiTestConn]

/-- Claim C8, witness: the amended theorem applied to a populated config. -/
theorem c8_witness :
    p5TestConn ⟨['u'], ['k'], ['m']⟩ (some 404) = TestOutcome.endpointMissing 404 :=
  (c8_classification ⟨['u'], ['k'], ['m']⟩ (by simp)).2.2.1

/-- Claim C9, counterexample: on an HTTP 500 with a populated config,
`part_005`'s `fetchCustomModels` does not return an empty list — it throws
(modelled as an error result).  Only `aiService.ts` returns `[]` on failure. -/
theorem c9_counterexample :
    p5FetchModels ⟨['u'], ['k'], ['m']⟩ (some (500, some (JVal.jobj [])))
      = Except.error (FetchErr.httpFail 500) :=
  rfl

/-- Claim C9 (amended): `aiService.ts`'s `fetchCustomModels` returns `[]` on
every failure (non-2xx status, missing/unparsable body, body whose `data` is
not an array), while `part_005`'s version throws classified errors: auth
errors on 401/403, an HTTP error on other non-2xx statuses, and a parse
error when the 2xx body is not JSON. -/
theorem c9_fetch_behaviour :
    (∀ s b, ¬ (200 ≤ s ∧ s ≤ 299) → aiFetchModels (some (s, b)) = [])
    ∧ aiFetchModels none = []
    ∧ (∀ s, aiFetchModels (some (s, none)) = [])
    ∧ (∀ s j, (∀ els, getF j dataKey ≠ some (JVal.jarr els)) →
        aiFetchModels (some (s, some j)) = [])
    ∧ (∀ cfg s b, ¬ (cfg.baseUrl = [] ∨ cfg.apiKey = []) → ¬ (200 ≤ s ∧ s ≤ 299) →
        ¬ (s = 401 ∨ s = 403) →
        p5FetchModels cfg (some (s, b)) = Except.error (FetchErr.httpFail s))
    ∧ (∀ cfg s b, ¬ (cfg.baseUrl = [] ∨ cfg.apiKey = []) → (s = 401 ∨ s = 403) →
        p5FetchModels cfg (some (s, b)) = Except.error (FetchErr.authFail s))
    ∧ (∀ cfg s, ¬ (cfg.baseUrl = [] ∨ cfg.apiKey = []) → 200 ≤ s ∧ s ≤ 299 →
        p5FetchModels cfg (some (s, none)) = Except.error FetchErr.bodyNotJson) := by
  refine ⟨?_, ?_, ?_, ?_, ?_, ?_, ?_⟩
  · intro s b h
    simp [aiFetchModels, h]
  · rfl
  · intro s
    by_cases h2 : 200 ≤ s ∧ s ≤ 299 <;> simp [aiFetchModels, h2]
  · intro s j hne
    cases hg : getF j dataKey with
    | none => simp [aiFetchModels, hg]
    | some w =>
      rcases w with _ | b | ⟨m, p⟩ | str | xs | fs
      · simp [aiFetchModels, hg]
      · simp [aiFetchModels, hg]
      · simp [aiFetchModels, hg]
      · simp [aiFetchModels, hg]
      · exact absurd hg (hne xs)
      · simp [aiFetchModels, hg]
  · intro cfg s b hcfg h2 hauth
    simp [p5FetchModels, hcfg, h2, hauth]
  · intro cfg s b hcfg hauth
    have h2 : ¬ (200 ≤ s ∧ s ≤ 299) := by rcases hauth with rfl | rfl <;> omega
    simp [p5FetchModels, hcfg, h2, hauth]
  · intro cfg s hcfg h2
    simp [p5FetchModels, hcfg, h2]

/-- Claim C9, witness: the amended theorem applied at a 500 response. -/
theorem c9_witness :
    aiFetchModels (some (500, some (JVal.jobj []))) = [] :=
  c9_fetch_behaviour.1 500 (some (JVal.jobj [])) (by omega)

/-- Claim C10 (confirmed): the context loader parses the saved string when
present, yields the default on parse failure, migrates a legacy flat config
(a truthy `provider` member and no truthy `dataToGraph`) into both
`dataToGraph` and `graphToData` slots, and falls back to the default when
the parsed value is neither legacy nor fully two-slot. -/
theorem c10_load_migration :
    (∀ s j p, jParse s = some j →
      getF j providerKey = some (JVal.jstr p) → p ≠ [] → getF j d2gKey = none →
      loadModelConfig (some s) = JVal.jobj [(d2gKey, j), (g2dKey, j)])
    ∧ (∀ s, jParse s = none → loadModelConfig (some s) = defaultModelConfig)
    ∧ loadModelConfig none = defaultModelConfig
    ∧ (∀ s j, jParse s = some j →
        truthyF j providerKey = false ∨ truthyF j d2gKey = true →
        truthyF j d2gKey = false ∨ truthyF j g2dKey = false →
        loadModelConfig (some s) = defaultModelConfig) := by
  refine ⟨?_, ?_, rfl, ?_⟩
  · intro s j p hs hp hpne hd
    have ht1 : truthyF j providerKey = true := by
      simp [truthyF, hp, jsTruthy, hpne]
    have ht2 : truthyF j d2gKey = false := by
      simp [truthyF, hd]
    unfold loadModelConfig
    dsimp only
    rw [hs]
    dsimp only
    cases j with
    | jnull => simp [getF] at hp
    | jbool b => simp [ht1, ht2]
    | jnum m p => simp [ht1, ht2]
    | jstr str => simp [ht1, ht2]
    | jarr xs => simp [ht1, ht2]
    | jobj fs => simp [ht1, ht2]
  · intro s h
    unfold loadModelConfig
    dsimp only
    rw [h]
  · intro s j hs h1 h2
    unfold loadModelConfig
    dsimp only
    rw [hs]
    dsimp only
    cases j with
    | jnull => rfl
    | jbool b => split_ifs with hA hB <;> simp_all
    | jnum m p => split_ifs with hA hB <;> simp_all
    | jstr str => split_ifs with hA hB <;> simp_all
    | jarr xs => split_ifs with hA hB <;> simp_all
    | jobj fs => split_ifs with hA hB <;> simp_all

/-- Claim C10, witness: loading the legacy flat config
`\x7b"provider":"google"\x7d` yields the migrated two-slot object. -/
theorem c10_witness :
    loadModelConfig (some ("\x7b\"provider\":\"google\"\x7d".toList))
      = JVal.jobj [(d2gKey, JVal.jobj [(providerKey, JVal.jstr googleName)]),
          (g2dKey, JVal.jobj [(providerKey, JVal.jstr googleName)])] :=
  c10_load_migration.1 ("\x7b\"provider\":\"google\"\x7d".toList)
    (JVal.jobj [(providerKey, JVal.jstr googleName)]) googleName
    rfl rfl (by simp [googleName]) rfl

/-- Claim C7, witness: the amended characterization applied to a custom
provider with no config object. -/
theorem c7_witness :
    ∃ e, aiDataGate ⟨ProviderKind.custom, none⟩ = Except.error e :=
  ((c7_gate_characterization ⟨ProviderKind.custom, none⟩).2).mpr ⟨rfl, rfl⟩

/-! ### Claim C5 -/

/-- `extractJsonString` (part_005 lines 26-43) yields `null` when the text
has no json fence and no `\x7b`/`[` anywhere. -/
theorem extractJsonString_nothing {ts : Chars}
    (hb : ∀ c ∈ ts, c ≠ lbr) (hk : ∀ c ∈ ts, c ≠ lbk)
    (hf : ¬ fenceJson <:+: ts) :
    extractJsonString ts = none := by
  unfold extractJsonString
  by_cases hts : ts = []
  · rw [if_pos hts]
  · rw [if_neg hts]
    unfold fenceGroup
    rw [fenceScan_none_of_not_contained hf]
    exact extractNoFence_none hb hk

/-- Claim C5, counterexample: a fenced block whose interior is the JSON
literal `true` (no braces or brackets anywhere) is extracted by part_005's
`extractJsonString` and accepted by `aiService.ts`'s `parseJsonResponse` —
neither treats "no `\x7b` or `[` in the text" as decisive, because the fence
branch runs first. -/
theorem c5_counterexample :
    extractJsonString ("```json true ```".toList) = some ("true".toList)
    ∧ parseJsonResponseFn ("```json true ```".toList)
        = Except.ok (JVal.jbool true) :=
  ⟨rfl, rfl⟩

/-- Claim C5 (amended): only when the text has no json fence in addition to
no `\x7b` and no `[` do the unfenced failure paths run: part_005 extracts
nothing and raises its non-JSON error carrying the first 50 characters,
while `aiService.ts` keeps the whole text as candidate and hands it to the
repair-then-parse step, so it errors exactly when that parse fails. -/
theorem c5_no_json_outcome (ts : Chars)
    (hb : ∀ c ∈ ts, c ≠ lbr) (hk : ∀ c ∈ ts, c ≠ lbk)
    (hf : ¬ fenceJson <:+: ts) :
    extractJsonString ts = none
    ∧ p5MapResponse ts = Except.error (P5Err.nonJson (jsSubstring ts 0 50))
    ∧ sliceCandidate ts = ts
    ∧ (jParse (repairCommas ts) = none →
        parseJsonResponseFn ts = Except.error AiErr.invalidFormat)
    ∧ (∀ v, jParse (repairCommas ts) = some v →
        parseJsonResponseFn ts = Except.ok v) := by
  have h1 : extractJsonString ts = none := extractJsonString_nothing hb hk hf
  have h2 : sliceCandidate ts = ts := sliceCandidate_no_fence_no_brace hb hf
  refine ⟨h1, ?_, h2, ?_, ?_⟩
  · unfold p5MapResponse
    rw [h1]
  · intro hp
    unfold parseJsonResponseFn
    rw [h2, hp]
  · intro v hp
    unfold parseJsonResponseFn
    rw [h2, hp]

/-- Claim C5, witness: the amended theorem applied to a refusal message with
no fence, no brace and no bracket. -/
theorem c5_witness :
    extractJsonString ("I cannot help with that.".toList) = none
    ∧ p5MapResponse ("I cannot help with that.".toList)
        = Except.error (P5Err.nonJson
            (jsSubstring ("I cannot help with that.".toList) 0 50)) :=
  ⟨(c5_no_json_outcome ("I cannot help with that.".toList)
      (by decide) (by decide) (by decide)).1,
   (c5_no_json_outcome ("I cannot help with that.".toList)
      (by decide) (by decide) (by decide)).2.1⟩

/-! ### Claim C3 -/

/-- `substring(0, ...)`-free fact: on backtick-free text the fence slice of
`parseJsonResponse` (aiService.ts lines 23-27) is the identity. -/
theorem sliceFence_id_of_nobtk {ts : Chars} (h : ∀ x ∈ ts, x ≠ btk) :
    sliceFence ts = ts := by
  have hn : subIdxLast fenceJson ts = none :=
    @subIdxLast_none_of_head_notin btk [btk, btk, 'j', 's', 'o', 'n'] ts h
  simp only [sliceFence, hn, jsIdxInt]
  rw [if_neg (by simp)]

/-- The brace slice of `parseJsonResponse` (aiService.ts lines 29-33) on a
braced span surrounded by prose free of the respective delimiter. -/
theorem sliceBraces_span {p1 body p2 : Chars}
    (h1 : ∀ c ∈ p1, c ≠ lbr) (h2 : ∀ c ∈ p2, c ≠ rbr) :
    sliceBraces (p1 ++ (lbr :: body ++ [rbr]) ++ p2) = lbr :: body ++ [rbr] := by
  have hfb : chIdx lbr (p1 ++ (lbr :: body ++ [rbr]) ++ p2) = some p1.length := by
    rw [List.append_assoc, chIdx_append_of_not h1]
    simp [chIdx_cons_self]
  have hlb : chIdxLast rbr (p1 ++ (lbr :: body ++ [rbr]) ++ p2)
      = some (p1.length + body.length + 1) := by
    rw [chIdxLast_append_right h2]
    have hsh : p1 ++ (lbr :: body ++ [rbr]) = (p1 ++ (lbr :: body)) ++ [rbr] := by
      simp [List.append_assoc]
    rw [hsh, chIdxLast_concat_self]
    simp
    omega
  simp only [sliceBraces, hfb, hlb, jsIdxInt]
  rw [if_pos]
  · exact jsSubstring_mid' p1 (lbr :: body ++ [rbr]) p2 (by push_cast; ring)
      (by push_cast; simp; push_cast; ring)
  · constructor
    · omega
    · push_cast; omega

/-- Claim C3, counterexample: for a balanced top-level JSON *array* embedded
in prose (`Result: [1,2] end`), `aiService.ts`'s `parseJsonResponse` does
not recover the span — its slicing handles braces only, so the candidate
stays the whole prose text, the parse fails and the classified invalid-format
error is raised even though a balanced JSON value is present. -/
theorem c3_counterexample :
    sliceCandidate ("Result: [1,2] end".toList) = "Result: [1,2] end".toList
    ∧ parseJsonResponseFn ("Result: [1,2] end".toList)
        = Except.error AiErr.invalidFormat
    ∧ extractJsonString ("Result: [1,2] end".toList) = some ("[1,2]".toList) :=
  ⟨rfl, rfl, rfl⟩

/-- Claim C3 (amended): when prose free of all four delimiter characters
surrounds one balanced span, part_005's `extractJsonString` recovers exactly
the span for braces and brackets alike, while `aiService.ts` recovers it
(and parses its value) only in the brace case. -/
theorem c3_span_recovery (p1 body p2 : Chars) (op cl : Char) (v : JVal)
    (hoc : (op = lbr ∧ cl = rbr) ∨ (op = lbk ∧ cl = rbk))
    (hp1 : ∀ c ∈ p1, c ≠ lbr ∧ c ≠ rbr ∧ c ≠ lbk ∧ c ≠ rbk)
    (hp2 : ∀ c ∈ p2, c ≠ lbr ∧ c ≠ rbr ∧ c ≠ lbk ∧ c ≠ rbk)
    (hb1 : ∀ c ∈ p1, c ≠ btk) (hb2 : ∀ c ∈ body, c ≠ btk)
    (hb3 : ∀ c ∈ p2, c ≠ btk)
    (hv : jParse (op :: body ++ [cl]) = some v) :
    extractJsonString (p1 ++ (op :: body ++ [cl]) ++ p2) = some (op :: body ++ [cl])
    ∧ (op = lbr → cl = rbr →
        sliceCandidate (p1 ++ (op :: body ++ [cl]) ++ p2) = op :: body ++ [cl])
    ∧ (op = lbr → cl = rbr →
        repairCommas (op :: body ++ [cl]) = op :: body ++ [cl] →
        parseJsonResponseFn (p1 ++ (op :: body ++ [cl]) ++ p2) = Except.ok v) := by
  have hop : op ≠ btk := by rcases hoc with ⟨rfl, h⟩ | ⟨rfl, h⟩ <;> decide
  have hcl : cl ≠ btk := by rcases hoc with ⟨h, rfl⟩ | ⟨h, rfl⟩ <;> decide
  have hbtk : ∀ c ∈ p1 ++ (op :: body ++ [cl]) ++ p2, c ≠ btk := by
    intro c hc
    rcases List.mem_append.mp hc with hc | hc
    · rcases List.mem_append.mp hc with hc | hc
      · exact hb1 c hc
      · rcases List.mem_cons.mp hc with rfl | hc
        · exact hop
        · rcases List.mem_append.mp hc with hc | hc
          · exact hb2 c hc
          · rw [List.mem_singleton] at hc
            subst hc
            exact hcl
    · exact hb3 c hc
  have hcand : op = lbr → cl = rbr →
      sliceCandidate (p1 ++ (op :: body ++ [cl]) ++ p2) = op :: body ++ [cl] := by
    intro h h'
    subst h
    subst h'
    have hsf := sliceFence_id_of_nobtk hbtk
    have h1' : ∀ c ∈ p1, c ≠ lbr := fun c hc => (hp1 c hc).1
    have h2' : ∀ c ∈ p2, c ≠ rbr := fun c hc => (hp2 c hc).2.1
    unfold sliceCandidate
    rw [hsf]
    exact sliceBraces_span h1' h2'
  refine ⟨?_, hcand, ?_⟩
  · have hne : p1 ++ (op :: body ++ [cl]) ++ p2 ≠ [] := by simp
    unfold extractJsonString
    rw [if_neg (by simpa using hne)]
    unfold fenceGroup
    rw [fenceScan_none_of_nobtk hbtk]
    exact extractNoFence_span hoc hp1 hp2
  · intro hopq hclq hrep
    have hc := hcand hopq hclq
    unfold parseJsonResponseFn
    rw [hc, hrep, hv]

/-- Claim C3, witness: the amended theorem applied to the braced span
`\x7b"a":1\x7d` inside delimiter-free prose. -/
theorem c3_witness :
    extractJsonString ("see ".toList ++ ("\x7b\"a\":1\x7d".toList) ++ " ok".toList)
      = some ("\x7b\"a\":1\x7d".toList)
    ∧ parseJsonResponseFn ("see ".toList ++ ("\x7b\"a\":1\x7d".toList) ++ " ok".toList)
      = Except.ok (JVal.jobj [(['a'], JVal.jnum 1 0)]) := by
  have h := c3_span_recovery ("see ".toList) ("\"a\":1".toList) (" ok".toList)
    lbr rbr (JVal.jobj [(['a'], JVal.jnum 1 0)])
    (Or.inl ⟨rfl, rfl⟩) (by decide) (by decide) (by decide) (by decide) (by decide)
    rfl
  exact ⟨h.1, h.2.2 rfl rfl rfl⟩

/-! ### Claim C1 -/

/-- Claim C1, counterexample: a fenced json block whose interior is the
array `[\x7b"a":1\x7d,2]`.  part_005's `extractJsonString` returns the
interior (which parses to the array), but `aiService.ts`'s
`parseJsonResponse` then slices from the first `\x7b` to the last `\x7d`
inside the fence content, producing `\x7b"a":1\x7d` — it parses to a
*different* JSON value than the fenced block's interior. -/
theorem c1_counterexample :
    extractJsonString ("```json [\x7b\"a\":1\x7d,2] ```".toList)
      = some ("[\x7b\"a\":1\x7d,2]".toList)
    ∧ jParse ("[\x7b\"a\":1\x7d,2]".toList)
        = some (JVal.jarr [JVal.jobj [(['a'], JVal.jnum 1 0)], JVal.jnum 2 0])
    ∧ parseJsonResponseFn ("```json [\x7b\"a\":1\x7d,2] ```".toList)
        = Except.ok (JVal.jobj [(['a'], JVal.jnum 1 0)]) :=
  ⟨rfl, rfl, rfl⟩

/-- Claim C1 (amended): for one well-formed fenced json block in
backtick-free prose, part_005's `extractJsonString` always returns the
trimmed interior (so the candidate parses to the interior's value), while
`aiService.ts`'s `parseJsonResponse` returns that value only when the
trimmed interior is itself brace-delimited (and needs no comma repair) —
its subsequent first-`\x7b`-to-last-`\x7d` slice is the identity exactly
then. -/
theorem c1_fenced_extraction (p1 mid p2 : Chars) (v : JVal)
    (h1 : ∀ c ∈ p1, c ≠ btk) (h2 : ∀ c ∈ mid, c ≠ btk) (h3 : ∀ c ∈ p2, c ≠ btk)
    (hv : jParse (jsTrim mid) = some v) :
    extractJsonString (p1 ++ (fenceJson ++ (mid ++ (fence3 ++ p2))))
      = some (jsTrim mid)
    ∧ (List.isPrefixOf ['j', 's', 'o', 'n'] p2 = false →
        ∀ body, jsTrim mid = lbr :: body ++ [rbr] →
        repairCommas (jsTrim mid) = jsTrim mid →
        parseJsonResponseFn (p1 ++ (fenceJson ++ (mid ++ (fence3 ++ p2))))
          = Except.ok v) := by
  have hne : jsTrim mid ≠ [] := by
    intro he
    rw [he] at hv
    exact Option.noConfusion (show (none : Option JVal) = some v from hv)
  constructor
  · exact extractJsonString_fenced h1 h2 h3 hne
  · intro hj body hcore hrep
    have hsf : sliceFence (p1 ++ (fenceJson ++ (mid ++ (fence3 ++ p2)))) = mid :=
      sliceFence_fenced h2 h3 hj
    obtain ⟨wsl, wsr, hdec, hwl, hwr⟩ := jsTrim_decomp mid
    rw [hcore] at hdec
    have hsb : sliceBraces mid = lbr :: body ++ [rbr] := by
      rw [hdec]
      exact sliceBraces_wrapped hwl hwr
    unfold parseJsonResponseFn sliceCandidate
    rw [hsf, hsb, ← hcore, hrep, hv]

/-- Claim C1, witness: the amended theorem applied to a fenced object in
prose. -/
theorem c1_witness :
    extractJsonString ("Text ".toList ++ (fenceJson ++ (" \x7b\"a\":1\x7d ".toList
        ++ (fence3 ++ " done".toList))))
      = some ("\x7b\"a\":1\x7d".toList)
    ∧ parseJsonResponseFn ("Text ".toList ++ (fenceJson ++ (" \x7b\"a\":1\x7d ".toList
        ++ (fence3 ++ " done".toList))))
      = Except.ok (JVal.jobj [(['a'], JVal.jnum 1 0)]) := by
  have h := c1_fenced_extraction ("Text ".toList) (" \x7b\"a\":1\x7d ".toList)
    (" done".toList) (JVal.jobj [(['a'], JVal.jnum 1 0)])
    (by decide) (by decide) (by decide) rfl
  exact ⟨h.1, h.2 (by decide) ("\"a\":1".toList) rfl rfl⟩

/-! ### Claim C4: digit and renderer groundwork -/

/-- The tails at which a rendered value may stop inside a document: end of
input, a separator comma, or a closer. -/
def stopsVal : Chars → Bool
  | [] => true
  | c :: _ => c = cma || c = rbk || c = rbr

theorem isDig_char (k : Nat) (hk : k < 10) : isDig (Char.ofNat (48 + k)) = true := by
  interval_cases k <;> decide

theorem char48_toNat (k : Nat) (hk : k < 10) : (Char.ofNat (48 + k)).toNat = 48 + k := by
  interval_cases k <;> decide

theorem natChars_digits (n : Nat) : ∀ c ∈ natChars n, isDig c = true := by
  induction n using Nat.strong_induction_on with
  | _ n ih =>
    unfold natChars
    split_ifs with h
    · intro c hc
      rw [List.mem_singleton] at hc
      subst hc
      exact isDig_char n h
    · intro c hc
      rcases List.mem_append.mp hc with hc | hc
      · exact ih (n / 10) (Nat.div_lt_self (by omega) (by omega)) c hc
      · rw [List.mem_singleton] at hc
        subst hc
        exact isDig_char (n % 10) (Nat.mod_lt _ (by omega))

theorem natChars_ne_nil (n : Nat) : natChars n ≠ [] := by
  unfold natChars
  split_ifs
  · simp
  · simp

theorem isDig_props {c : Char} (h : isDig c = true) :
    c ≠ cma ∧ c ≠ rbr ∧ c ≠ rbk ∧ c ≠ quc ∧ c ≠ bsl ∧ c ≠ lbr ∧ c ≠ lbk
    ∧ c ≠ mns ∧ c ≠ dtc ∧ c ≠ 'e' ∧ c ≠ 'E' ∧ c ≠ 't' ∧ c ≠ 'f' ∧ c ≠ 'n' := by
  have hn : 48 ≤ c.toNat ∧ c.toNat ≤ 57 := by simpa [isDig] using h
  exact ⟨fun he => absurd (he ▸ hn) (by decide), fun he => absurd (he ▸ hn) (by decide),
    fun he => absurd (he ▸ hn) (by decide), fun he => absurd (he ▸ hn) (by decide),
    fun he => absurd (he ▸ hn) (by decide), fun he => absurd (he ▸ hn) (by decide),
    fun he => absurd (he ▸ hn) (by decide), fun he => absurd (he ▸ hn) (by decide),
    fun he => absurd (he ▸ hn) (by decide), fun he => absurd (he ▸ hn) (by decide),
    fun he => absurd (he ▸ hn) (by decide), fun he => absurd (he ▸ hn) (by decide),
    fun he => absurd (he ▸ hn) (by decide), fun he => absurd (he ▸ hn) (by decide)⟩

theorem isDig_not_jws {c : Char} (h : isDig c = true) : isJWs c = false := by
  cases hw : isJWs c
  · rfl
  · exfalso
    have h2 := hw
    simp [isJWs] at h2
    have hn : 48 ≤ c.toNat ∧ c.toNat ≤ 57 := by simpa [isDig] using h
    rcases h2 with ((rfl | rfl) | rfl) | rfl <;> exact absurd hn (by decide)

theorem isDig_not_jsws {c : Char} (h : isDig c = true) : isJsWs c = false := by
  cases hw : isJsWs c
  · rfl
  · exfalso
    have h2 := hw
    simp [isJsWs] at h2
    have hn : 48 ≤ c.toNat ∧ c.toNat ≤ 57 := by simpa [isDig] using h
    rcases h2 with ((((rfl | rfl) | rfl) | rfl) | rfl) | rfl <;> exact absurd hn (by decide)

theorem digsVal_append_digit (a : Chars) (c : Char) :
    digsVal (a ++ [c]) = digsVal a * 10 + (c.toNat - 48) := by
  simp [digsVal, List.foldl_append]

theorem digsVal_natChars (n : Nat) : digsVal (natChars n) = n := by
  induction n using Nat.strong_induction_on with
  | _ n ih =>
    unfold natChars
    split_ifs with h
    · have hone : digsVal [Char.ofNat (48 + n)] = (Char.ofNat (48 + n)).toNat - 48 := by
        simp [digsVal]
      rw [hone, char48_toNat n h]
      omega
    · rw [digsVal_append_digit, ih (n / 10) (Nat.div_lt_self (by omega) (by omega)),
        char48_toNat (n % 10) (Nat.mod_lt _ (by omega))]
      omega

theorem natChars_head_ne_zero : ∀ n : Nat, n ≠ 0 → (natChars n).head? ≠ some '0' := by
  intro n
  induction n using Nat.strong_induction_on with
  | _ n ih =>
    intro hn
    unfold natChars
    split_ifs with h
    · simp only [List.head?_cons]
      intro he
      have he2 := congrArg Char.toNat (Option.some.inj he)
      rw [char48_toNat n h] at he2
      have h0 : ('0' : Char).toNat = 48 := by decide
      rw [h0] at he2
      omega
    · cases hnc : natChars (n / 10) with
      | nil => exact absurd hnc (natChars_ne_nil _)
      | cons c r =>
        simp only [hnc, List.cons_append, List.head?_cons]
        have hh := ih (n / 10) (Nat.div_lt_self (by omega) (by omega)) (by omega)
        rw [hnc] at hh
        simpa using hh

theorem natChars_no_leading_zero (n : Nat) :
    ¬ (1 < (natChars n).length ∧ (natChars n).head? = some '0') := by
  rintro ⟨hl, hh⟩
  by_cases hn : n = 0
  · subst hn
    have h0 : natChars 0 = ['0'] := by
      unfold natChars
      rw [if_pos (by norm_num)]
    rw [h0] at hl
    simp at hl
  · exact natChars_head_ne_zero n hn hh

theorem span_append_of_all {p : Char → Bool} {a : Chars} (h : ∀ c ∈ a, p c = true) :
    ∀ {t : Chars}, (∀ c, t.head? = some c → p c = false) →
    (a ++ t).takeWhile p = a ∧ (a ++ t).dropWhile p = t := by
  induction a with
  | nil =>
    intro t ht
    constructor
    · cases t with
      | nil => rfl
      | cons c r => simp [List.takeWhile_cons, ht c rfl]
    · cases t with
      | nil => rfl
      | cons c r => simp [List.dropWhile_cons, ht c rfl]
  | cons x a ih =>
    intro t ht
    have hx : p x = true := h x (by simp)
    have ha : ∀ c ∈ a, p c = true := fun c hc => h c (by simp [hc])
    constructor
    · simp [List.takeWhile_cons, hx, (ih ha ht).1]
    · simp [List.dropWhile_cons, hx, (ih ha ht).2]

theorem stopsVal_head_facts {c : Char} {r : Chars} (h : stopsVal (c :: r) = true) :
    isDig c = false ∧ c ≠ dtc ∧ c ≠ 'e' ∧ c ≠ 'E' ∧ c ≠ mns := by
  simp [stopsVal] at h
  rcases h with (rfl | rfl) | rfl <;>
    exact ⟨by decide, by decide, by decide, by decide, by decide⟩

theorem jFracPart_stops {t : Chars} (ht : stopsVal t = true) :
    jFracPart t = some ([], t) := by
  cases t with
  | nil => rfl
  | cons c r => simp [jFracPart, (stopsVal_head_facts ht).2.1]

theorem jExpPart_stops {t : Chars} (ht : stopsVal t = true) :
    jExpPart t = some (0, t) := by
  cases t with
  | nil => rfl
  | cons c r =>
    have hf := stopsVal_head_facts ht
    simp [jExpPart, hf.2.2.1, hf.2.2.2.1]

theorem jNum_digits_stop (n : Nat) {t : Chars} (ht : stopsVal t = true) :
    jNum (natChars n ++ t) = some (JVal.jnum (n : Int) 0, t) := by
  have hd := natChars_digits n
  have htt : ∀ c, t.head? = some c → isDig c = false := by
    intro c hc
    cases t with
    | nil => exact absurd hc (by simp)
    | cons c0 r =>
      have hcc : c0 = c := by simpa using hc
      subst hcc
      exact (stopsVal_head_facts ht).1
  obtain ⟨htk, hdr⟩ := span_append_of_all hd htt
  have hnz := natChars_no_leading_zero n
  have hval := digsVal_natChars n
  cases hnc : natChars n with
  | nil => exact absurd hnc (natChars_ne_nil n)
  | cons c0 ds =>
    have hc0 : isDig c0 = true := hd c0 (by rw [hnc]; simp)
    have hc0m : c0 ≠ mns := (isDig_props hc0).2.2.2.2.2.2.2.1
    rw [hnc] at htk hdr hnz hval
    unfold jNum
    simp only [List.cons_append] at htk hdr ⊢
    simp only [if_neg hc0m, hc0, not_true, if_neg, htk, hdr]
    rw [if_neg hnz, jFracPart_stops ht]
    simp [jExpPart_stops ht, hval]

theorem jNum_neg_digits_stop (n : Nat) {t : Chars} (ht : stopsVal t = true) :
    jNum (mns :: (natChars n ++ t)) = some (JVal.jnum (-(n : Int)) 0, t) := by
  have hd := natChars_digits n
  have htt : ∀ c, t.head? = some c → isDig c = false := by
    intro c hc
    cases t with
    | nil => exact absurd hc (by simp)
    | cons c0 r =>
      have hcc : c0 = c := by simpa using hc
      subst hcc
      exact (stopsVal_head_facts ht).1
  obtain ⟨htk, hdr⟩ := span_append_of_all hd htt
  have hnz := natChars_no_leading_zero n
  have hval := digsVal_natChars n
  cases hnc : natChars n with
  | nil => exact absurd hnc (natChars_ne_nil n)
  | cons c0 ds =>
    have hc0 : isDig c0 = true := hd c0 (by rw [hnc]; simp)
    rw [hnc] at htk hdr hnz hval
    unfold jNum
    simp only [List.cons_append] at htk hdr ⊢
    simp only [reduceIte, hc0, not_true, htk, hdr]
    rw [if_neg hnz, jFracPart_stops ht]
    simp [jExpPart_stops ht, hval]

/-- `jNum` on a rendered integer followed by a stopping tail. -/
theorem jNum_intChars (m : Int) {t : Chars} (ht : stopsVal t = true) :
    jNum (intChars m ++ t) = some (JVal.jnum m 0, t) := by
  by_cases hm : m < 0
  · have hcast : -((m.natAbs : Int)) = m := by omega
    have hsh : intChars m ++ t = mns :: (natChars m.natAbs ++ t) := by
      unfold intChars
      rw [if_pos hm]
      simp
    rw [hsh, jNum_neg_digits_stop m.natAbs ht, hcast]
  · have hcast : ((m.natAbs : Nat) : Int) = m := by omega
    have hsh : intChars m ++ t = natChars m.natAbs ++ t := by
      unfold intChars
      rw [if_neg hm]
      simp
    rw [hsh, jNum_digits_stop m.natAbs ht, hcast]

theorem plainChar_props {c : Char} (h : plainChar c = true) :
    c ≠ quc ∧ c ≠ bsl ∧ c ≠ cma ∧ ¬ (c.toNat < 32) := by
  simp only [plainChar, Bool.and_eq_true, decide_eq_true_eq] at h
  obtain ⟨⟨⟨h1, h2⟩, h3⟩, h4⟩ := h
  exact ⟨h1, h2, h3, by omega⟩

theorem jStrBody_plain {s : Chars} (h : s.all plainChar = true) (t : Chars) :
    jStrBody (s ++ quc :: t) = some (s, t) := by
  induction s with
  | nil =>
    show jStrBody (quc :: t) = some ([], t)
    unfold jStrBody
    rw [if_pos rfl]
  | cons c r ih =>
    rw [List.all_cons, Bool.and_eq_true] at h
    obtain ⟨hc, hr⟩ := h
    obtain ⟨h1, h2, h3, h4⟩ := plainChar_props hc
    show jStrBody (c :: (r ++ quc :: t)) = some (c :: r, t)
    unfold jStrBody
    rw [if_neg h1, if_neg h2, if_neg h4, ih hr]
    rfl

theorem wsDrop_cons_of_not {c : Char} {r : Chars} (h : isJWs c = false) :
    wsDrop (c :: r) = c :: r := by
  simp [wsDrop, List.dropWhile_cons, h]

theorem closerAfterWs_cons_false {c : Char} (h1 : isJsWs c = false) (h2 : c ≠ rbr)
    (h3 : c ≠ rbk) (r : Chars) : closerAfterWs (c :: r) = false := by
  simp [closerAfterWs, h1, h2, h3]

theorem closerAfterWs_rbr (r : Chars) : closerAfterWs (rbr :: r) = true := by
  have h1 : isJsWs rbr = false := by decide
  simp [closerAfterWs, h1]

theorem closerAfterWs_rbk (r : Chars) : closerAfterWs (rbk :: r) = true := by
  have h1 : isJsWs rbk = false := by decide
  simp [closerAfterWs, h1]

theorem repairCommas_cons_ne {c : Char} (h : c ≠ cma) (r : Chars) :
    repairCommas (c :: r) = c :: repairCommas r := by
  simp [repairCommas, h]

theorem repairCommas_append_nocma {a : Chars} (h : ∀ c ∈ a, c ≠ cma) (t : Chars) :
    repairCommas (a ++ t) = a ++ repairCommas t := by
  induction a with
  | nil => rfl
  | cons c r ih =>
    have hc : c ≠ cma := h c (by simp)
    have hr : ∀ x ∈ r, x ≠ cma := fun x hx => h x (by simp [hx])
    simp [repairCommas_cons_ne hc, ih hr]

theorem repairCommas_cma_keep {r : Chars} (h : closerAfterWs r = false) :
    repairCommas (cma :: r) = cma :: repairCommas r := by
  simp [repairCommas, h]

theorem repairCommas_cma_drop {r : Chars} (h : closerAfterWs r = true) :
    repairCommas (cma :: r) = repairCommas r := by
  simp [repairCommas, h]

theorem emit_head (tc : Bool) (v : JVal) :
    ∃ c r, emit tc v = c :: r ∧ isJWs c = false ∧ isJsWs c = false
      ∧ c ≠ rbr ∧ c ≠ rbk ∧ c ≠ cma := by
  cases v with
  | jnull =>
    refine ⟨'n', ['u', 'l', 'l'], ?_, by decide, by decide, by decide, by decide, by decide⟩
    simp [emit]
  | jbool b =>
    cases b
    · refine ⟨'f', ['a', 'l', 's', 'e'], ?_, by decide, by decide, by decide, by decide,
        by decide⟩
      simp [emit]
    · refine ⟨'t', ['r', 'u', 'e'], ?_, by decide, by decide, by decide, by decide,
        by decide⟩
      simp [emit]
  | jnum m p =>
    by_cases hm : m < 0
    · refine ⟨mns, natChars m.natAbs, ?_, by decide, by decide, by decide, by decide,
        by decide⟩
      simp [emit, intChars, hm]
    · cases hnc : natChars m.natAbs with
      | nil => exact absurd hnc (natChars_ne_nil _)
      | cons c r =>
        have hd : isDig c = true := natChars_digits _ c (by rw [hnc]; simp)
        have hp := isDig_props hd
        refine ⟨c, r, ?_, isDig_not_jws hd, isDig_not_jsws hd, hp.2.1, hp.2.2.1, hp.1⟩
        simp [emit, intChars, hm, hnc]
  | jstr s =>
    refine ⟨quc, s ++ [quc], ?_, by decide, by decide, by decide, by decide, by decide⟩
    simp [emit, emitStr]
  | jarr xs =>
    cases xs with
    | nil =>
      refine ⟨lbk, [rbk], ?_, by decide, by decide, by decide, by decide, by decide⟩
      simp [emit]
    | cons x rest =>
      refine ⟨lbk, emitItems tc x rest ++ (if tc then [cma, rbk] else [rbk]), ?_,
        by decide, by decide, by decide, by decide, by decide⟩
      simp [emit]
  | jobj fs =>
    cases fs with
    | nil =>
      refine ⟨lbr, [rbr], ?_, by decide, by decide, by decide, by decide, by decide⟩
      simp [emit]
    | cons f rest =>
      refine ⟨lbr, emitFields tc f rest ++ (if tc then [cma, rbr] else [rbr]), ?_,
        by decide, by decide, by decide, by decide, by decide⟩
      simp [emit]

theorem emitItems_head (tc : Bool) (x : JVal) (xs : List JVal) :
    ∃ c r, emitItems tc x xs = c :: r ∧ isJWs c = false ∧ isJsWs c = false
      ∧ c ≠ rbr ∧ c ≠ rbk ∧ c ≠ cma := by
  obtain ⟨c, r, he, h1, h2, h3, h4, h5⟩ := emit_head tc x
  cases xs with
  | nil => exact ⟨c, r, by simp [emitItems, he], h1, h2, h3, h4, h5⟩
  | cons y ys =>
    exact ⟨c, r ++ cma :: emitItems tc y ys, by simp [emitItems, he], h1, h2, h3, h4, h5⟩

theorem emitFields_head (tc : Bool) (f : Chars × JVal) (fs : List (Chars × JVal)) :
    ∃ r, emitFields tc f fs = quc :: r := by
  obtain ⟨k, v⟩ := f
  cases fs with
  | nil => exact ⟨(k ++ [quc]) ++ cln :: emit tc v, by simp [emitFields, emitStr]⟩
  | cons g gs =>
    exact ⟨(k ++ [quc]) ++ cln :: emit tc v ++ cma :: emitFields tc g gs,
      by simp [emitFields, emitStr]⟩

theorem emitStr_nocma {s : Chars} (h : s.all plainChar = true) :
    ∀ c ∈ emitStr s, c ≠ cma := by
  intro c hc
  simp only [emitStr, List.mem_cons, List.mem_append, List.mem_singleton] at hc
  rcases hc with rfl | hc | rfl | hc2
  · decide
  · exact (plainChar_props (List.all_eq_true.mp h c hc)).2.2.1
  · decide
  · simp at hc2

theorem intChars_nocma (m : Int) : ∀ c ∈ intChars m, c ≠ cma := by
  intro c hc
  unfold intChars at hc
  rcases List.mem_append.mp hc with hc | hc
  · split_ifs at hc with h
    · rw [List.mem_singleton] at hc
      subst hc
      decide
    · simp at hc
  · exact (isDig_props (natChars_digits _ c hc)).1

theorem sizeOf_jval_pos (v : JVal) : 1 ≤ sizeOf v := by
  cases v <;> simp <;> omega

/-- The comma repair turns the trailing-comma rendering into the strict
rendering, uniformly in the continuation. -/
theorem repair_emit (n : Nat) :
    (∀ v, sizeOf v ≤ n → plainJ v = true →
      ∀ t, repairCommas (emit true v ++ t) = emit false v ++ repairCommas t)
    ∧ (∀ x xs, sizeOf x + sizeOf xs ≤ n → plainJ x = true → plainL xs = true →
      ∀ t, repairCommas (emitItems true x xs ++ t)
        = emitItems false x xs ++ repairCommas t)
    ∧ (∀ k v fs, sizeOf v + sizeOf fs ≤ n → k.all plainChar = true → plainJ v = true →
        plainF fs = true →
      ∀ t, repairCommas (emitFields true (k, v) fs ++ t)
        = emitFields false (k, v) fs ++ repairCommas t) := by
  induction n using Nat.strong_induction_on with
  | _ n ih =>
    refine ⟨?_, ?_, ?_⟩
    · intro v hsz hp t
      cases v with
      | jnull =>
        rw [show emit true JVal.jnull = ['n', 'u', 'l', 'l'] by simp [emit],
          show emit false JVal.jnull = ['n', 'u', 'l', 'l'] by simp [emit]]
        exact repairCommas_append_nocma (by decide) t
      | jbool b =>
        cases b
        · rw [show emit true (JVal.jbool false) = ['f', 'a', 'l', 's', 'e'] by simp [emit],
            show emit false (JVal.jbool false) = ['f', 'a', 'l', 's', 'e'] by simp [emit]]
          exact repairCommas_append_nocma (by decide) t
        · rw [show emit true (JVal.jbool true) = ['t', 'r', 'u', 'e'] by simp [emit],
            show emit false (JVal.jbool true) = ['t', 'r', 'u', 'e'] by simp [emit]]
          exact repairCommas_append_nocma (by decide) t
      | jnum m p =>
        rw [show emit true (JVal.jnum m p) = intChars m by simp [emit],
          show emit false (JVal.jnum m p) = intChars m by simp [emit]]
        exact repairCommas_append_nocma (intChars_nocma m) t
      | jstr s =>
        have hs : s.all plainChar = true := by simpa [plainJ] using hp
        rw [show emit true (JVal.jstr s) = emitStr s by simp [emit],
          show emit false (JVal.jstr s) = emitStr s by simp [emit]]
        exact repairCommas_append_nocma (emitStr_nocma hs) t
      | jarr xs =>
        cases xs with
        | nil =>
          rw [show emit true (JVal.jarr []) = [lbk, rbk] by simp [emit],
            show emit false (JVal.jarr []) = [lbk, rbk] by simp [emit]]
          exact repairCommas_append_nocma (by decide) t
        | cons x rest =>
          have hp2 : plainJ x = true ∧ plainL rest = true := by
            simpa [plainJ, plainL, Bool.and_eq_true] using hp
          have hlt : sizeOf x + sizeOf rest < n := by
            have h1 : sizeOf (JVal.jarr (x :: rest)) = 1 + (1 + sizeOf x + sizeOf rest) := by
              simp
            omega
          rw [show emit true (JVal.jarr (x :: rest))
              = lbk :: (emitItems true x rest ++ [cma, rbk]) by simp [emit],
            show emit false (JVal.jarr (x :: rest))
              = lbk :: (emitItems false x rest ++ [rbk]) by simp [emit]]
          rw [List.cons_append, repairCommas_cons_ne (show lbk ≠ cma by decide),
            List.append_assoc]
          rw [(ih (sizeOf x + sizeOf rest) hlt).2.1 x rest le_rfl hp2.1 hp2.2
            ([cma, rbk] ++ t)]
          rw [show repairCommas ([cma, rbk] ++ t) = rbk :: repairCommas t by
            rw [show ([cma, rbk] ++ t) = cma :: (rbk :: t) by rfl,
              repairCommas_cma_drop (closerAfterWs_rbk t),
              repairCommas_cons_ne (show rbk ≠ cma by decide)]]
          simp
      | jobj fs =>
        cases fs with
        | nil =>
          rw [show emit true (JVal.jobj []) = [lbr, rbr] by simp [emit],
            show emit false (JVal.jobj []) = [lbr, rbr] by simp [emit]]
          exact repairCommas_append_nocma (by decide) t
        | cons f rest =>
          obtain ⟨k, v⟩ := f
          have hp2 : k.all plainChar = true ∧ plainJ v = true ∧ plainF rest = true := by
            have h2 := hp
            simp only [plainJ, plainF, Bool.and_eq_true] at h2
            exact ⟨h2.1.1, h2.1.2, h2.2⟩
          have hlt : sizeOf v + sizeOf rest < n := by
            have h1 : sizeOf (JVal.jobj ((k, v) :: rest))
                = 1 + (1 + (1 + sizeOf k + sizeOf v) + sizeOf rest) := by simp
            have h2 : 1 ≤ sizeOf k := by
              cases k <;> simp <;> omega
            omega
          rw [show emit true (JVal.jobj ((k, v) :: rest))
              = lbr :: (emitFields true (k, v) rest ++ [cma, rbr]) by simp [emit],
            show emit false (JVal.jobj ((k, v) :: rest))
              = lbr :: (emitFields false (k, v) rest ++ [rbr]) by simp [emit]]
          rw [List.cons_append, repairCommas_cons_ne (show lbr ≠ cma by decide),
            List.append_assoc]
          rw [(ih (sizeOf v + sizeOf rest) hlt).2.2 k v rest le_rfl hp2.1 hp2.2.1 hp2.2.2
            ([cma, rbr] ++ t)]
          rw [show repairCommas ([cma, rbr] ++ t) = rbr :: repairCommas t by
            rw [show ([cma, rbr] ++ t) = cma :: (rbr :: t) by rfl,
              repairCommas_cma_drop (closerAfterWs_rbr t),
              repairCommas_cons_ne (show rbr ≠ cma by decide)]]
          simp
    · intro x xs hsz hpx hpxs t
      cases xs with
      | nil =>
        rw [show emitItems true x [] = emit true x by simp [emitItems],
          show emitItems false x [] = emit false x by simp [emitItems]]
        have hlt : sizeOf x < n := by
          have h1 : sizeOf ([] : List JVal) = 1 := by simp
          omega
        exact (ih (sizeOf x) hlt).1 x le_rfl hpx t
      | cons y ys =>
        have hp2 : plainJ y = true ∧ plainL ys = true := by
          simpa [plainL, Bool.and_eq_true] using hpxs
        have hxpos := sizeOf_jval_pos x
        have hsz2 : sizeOf (y :: ys) = 1 + sizeOf y + sizeOf ys := by simp
        have hltx : sizeOf x < n := by omega
        have hlty : sizeOf y + sizeOf ys < n := by omega
        rw [show emitItems true x (y :: ys) = emit true x ++ cma :: emitItems true y ys
            by simp [emitItems],
          show emitItems false x (y :: ys) = emit false x ++ cma :: emitItems false y ys
            by simp [emitItems]]
        rw [List.append_assoc, List.cons_append,
          (ih (sizeOf x) hltx).1 x le_rfl hpx (cma :: (emitItems true y ys ++ t))]
        obtain ⟨c, r, he, hw1, hw2, hw3, hw4, hw5⟩ := emitItems_head true y ys
        have hcl : closerAfterWs (emitItems true y ys ++ t) = false := by
          rw [he, List.cons_append]
          exact closerAfterWs_cons_false hw2 hw3 hw4 _
        rw [repairCommas_cma_keep hcl,
          (ih (sizeOf y + sizeOf ys) hlty).2.1 y ys le_rfl hp2.1 hp2.2 t]
        simp
    · intro k v fs hsz hk hv hf t
      cases fs with
      | nil =>
        rw [show emitFields true (k, v) [] = emitStr k ++ cln :: emit true v
            by simp [emitFields],
          show emitFields false (k, v) [] = emitStr k ++ cln :: emit false v
            by simp [emitFields]]
        have hlt : sizeOf v < n := by
          have h1 : sizeOf ([] : List (Chars × JVal)) = 1 := by simp
          omega
        rw [List.append_assoc, repairCommas_append_nocma (emitStr_nocma hk),
          List.cons_append, repairCommas_cons_ne (show cln ≠ cma by decide),
          (ih (sizeOf v) hlt).1 v le_rfl hv t]
        simp
      | cons g gs =>
        obtain ⟨k2, v2⟩ := g
        have hp2 : k2.all plainChar = true ∧ plainJ v2 = true ∧ plainF gs = true := by
          have h2 := hf
          simp only [plainF, Bool.and_eq_true] at h2
          exact ⟨h2.1.1, h2.1.2, h2.2⟩
        have hvpos := sizeOf_jval_pos v
        have hsz2 : sizeOf ((k2, v2) :: gs) = 1 + (1 + sizeOf k2 + sizeOf v2) + sizeOf gs := by
          simp
        have hk2pos : 1 ≤ sizeOf k2 := by cases k2 <;> simp <;> omega
        have hltv : sizeOf v < n := by omega
        have hltg : sizeOf v2 + sizeOf gs < n := by omega
        rw [show emitFields true (k, v) ((k2, v2) :: gs)
            = (emitStr k ++ (cln :: emit true v)) ++ (cma :: emitFields true (k2, v2) gs)
            by simp [emitFields],
          show emitFields false (k, v) ((k2, v2) :: gs)
            = (emitStr k ++ (cln :: emit false v)) ++ (cma :: emitFields false (k2, v2) gs)
            by simp [emitFields]]
        simp only [List.append_assoc, List.cons_append]
        rw [repairCommas_append_nocma (emitStr_nocma hk)]
        rw [repairCommas_cons_ne (show cln ≠ cma by decide)]
        rw [(ih (sizeOf v) hltv).1 v le_rfl hv (cma :: (emitFields true (k2, v2) gs ++ t))]
        obtain ⟨r, he⟩ := emitFields_head true (k2, v2) gs
        have hcl : closerAfterWs (emitFields true (k2, v2) gs ++ t) = false := by
          rw [he, List.cons_append]
          exact closerAfterWs_cons_false (by decide) (by decide) (by decide) _
        rw [repairCommas_cma_keep hcl,
          (ih (sizeOf v2 + sizeOf gs) hltg).2.2 k2 v2 gs le_rfl hp2.1 hp2.2.1 hp2.2.2 t]

theorem repairCommas_emit {v : JVal} (hv : plainJ v = true) :
    repairCommas (emit true v) = emit false v := by
  have h := (repair_emit (sizeOf v)).1 v le_rfl hv []
  rw [List.append_nil, show repairCommas [] = [] from rfl, List.append_nil] at h
  exact h

theorem jVal_null (f : Nat) (t : Chars) :
    jVal (f + 1) ('n' :: 'u' :: 'l' :: 'l' :: t) = some (JVal.jnull, t) := by
  have h1 : ('n' : Char) ≠ lbr := by decide
  have h2 : ('n' : Char) ≠ lbk := by decide
  have h3 : ('n' : Char) ≠ quc := by decide
  have h4 : ¬ (('n' : Char) = mns ∨ isDig 'n' = true) := by decide
  simp [jVal, h1, h2, h3, h4, List.isPrefixOf]

theorem jVal_tru (f : Nat) (t : Chars) :
    jVal (f + 1) ('t' :: 'r' :: 'u' :: 'e' :: t) = some (JVal.jbool true, t) := by
  have h1 : ('t' : Char) ≠ lbr := by decide
  have h2 : ('t' : Char) ≠ lbk := by decide
  have h3 : ('t' : Char) ≠ quc := by decide
  simp [jVal, h1, h2, h3, List.isPrefixOf]

theorem jVal_fls (f : Nat) (t : Chars) :
    jVal (f + 1) ('f' :: 'a' :: 'l' :: 's' :: 'e' :: t) = some (JVal.jbool false, t) := by
  have h1 : ('f' : Char) ≠ lbr := by decide
  have h2 : ('f' : Char) ≠ lbk := by decide
  have h3 : ('f' : Char) ≠ quc := by decide
  simp [jVal, h1, h2, h3, List.isPrefixOf]

theorem jVal_str (f : Nat) {s : Chars} (hs : s.all plainChar = true) (t : Chars) :
    jVal (f + 1) (quc :: (s ++ quc :: t)) = some (JVal.jstr s, t) := by
  have h1 : quc ≠ lbr := by decide
  have h2 : quc ≠ lbk := by decide
  simp [jVal, h1, h2, jStrBody_plain hs]

theorem jVal_num (f : Nat) (m : Int) {t : Chars} (ht : stopsVal t = true) :
    jVal (f + 1) (intChars m ++ t) = some (JVal.jnum m 0, t) := by
  by_cases hm : m < 0
  · have hsh : intChars m ++ t = mns :: (natChars m.natAbs ++ t) := by
      unfold intChars
      rw [if_pos hm]
      simp
    rw [hsh]
    have h1 : mns ≠ lbr := by decide
    have h2 : mns ≠ lbk := by decide
    have h3 : mns ≠ quc := by decide
    have h4 : mns ≠ 't' := by decide
    have h5 : mns ≠ 'f' := by decide
    have h6 : mns ≠ 'n' := by decide
    have hj : jNum (mns :: (natChars m.natAbs ++ t)) = some (JVal.jnum m 0, t) := by
      have hbase := jNum_neg_digits_stop m.natAbs ht
      rw [show -((m.natAbs : Int)) = m from by omega] at hbase
      exact hbase
    simp [jVal, h1, h2, h3, h4, h5, h6, hj]
  · have hsh : intChars m ++ t = natChars m.natAbs ++ t := by
      unfold intChars
      rw [if_neg hm]
      simp
    rw [hsh]
    cases hnc : natChars m.natAbs with
    | nil => exact absurd hnc (natChars_ne_nil _)
    | cons c ds =>
      have hd : isDig c = true := natChars_digits _ c (by rw [hnc]; simp)
      obtain ⟨hcma, hrbr, hrbk, hquc, hbsl, hlbr2, hlbk2, hmns, hdtc, he1, he2,
        ht1, hf1, hn1⟩ := isDig_props hd
      have hj : jNum (natChars m.natAbs ++ t) = some (JVal.jnum m 0, t) := by
        have hbase := jNum_digits_stop m.natAbs ht
        rw [show ((m.natAbs : Nat) : Int) = m from by omega] at hbase
        exact hbase
      rw [hnc] at hj
      simp only [List.cons_append] at hj ⊢
      simp [jVal, hlbr2, hlbk2, hquc, ht1, hf1, hn1, hd, hj]

theorem jVal_arr_nil (f : Nat) (t : Chars) :
    jVal (f + 1) (lbk :: rbk :: t) = some (JVal.jarr [], t) := by
  have h1 : lbk ≠ lbr := by decide
  have h2 : isJWs rbk = false := by decide
  simp [jVal, h1, wsDrop_cons_of_not h2]

theorem jVal_obj_nil (f : Nat) (t : Chars) :
    jVal (f + 1) (lbr :: rbr :: t) = some (JVal.jobj [], t) := by
  have h2 : isJWs rbr = false := by decide
  simp [jVal, wsDrop_cons_of_not h2]

theorem jVal_arr_cons (f : Nat) {x : JVal} {xs : List JVal} {t : Chars}
    (h : jItems f (emitItems false x xs ++ (rbk :: t)) = some (x :: xs, t)) :
    jVal (f + 1) (lbk :: (emitItems false x xs ++ (rbk :: t)))
      = some (JVal.jarr (x :: xs), t) := by
  have h1 : lbk ≠ lbr := by decide
  obtain ⟨c, r, he, hw1, hw2, hw3, hw4, hw5⟩ := emitItems_head false x xs
  rw [he] at h ⊢
  simp only [List.cons_append] at h ⊢
  simp [jVal, h1, wsDrop_cons_of_not hw1, hw4, h]

theorem jVal_obj_cons (f : Nat) {kv : Chars × JVal} {fs : List (Chars × JVal)} {t : Chars}
    (h : jFields f (emitFields false kv fs ++ (rbr :: t)) = some (kv :: fs, t)) :
    jVal (f + 1) (lbr :: (emitFields false kv fs ++ (rbr :: t)))
      = some (JVal.jobj (kv :: fs), t) := by
  obtain ⟨r, he⟩ := emitFields_head false kv fs
  have hw1 : isJWs quc = false := by decide
  have hw3 : quc ≠ rbr := by decide
  rw [he] at h ⊢
  simp only [List.cons_append] at h ⊢
  simp [jVal, wsDrop_cons_of_not hw1, hw3, h]

theorem jItems_single (f : Nat) {x : JVal} {t : Chars}
    (h : jVal f (emit false x ++ (rbk :: t)) = some (x, rbk :: t)) :
    jItems (f + 1) (emit false x ++ (rbk :: t)) = some ([x], t) := by
  have h2 : isJWs rbk = false := by decide
  have h3 : rbk ≠ cma := by decide
  simp [jItems, h, wsDrop_cons_of_not h2, h3]

theorem jItems_cons (f : Nat) {x y : JVal} {ys : List JVal} {t : Chars}
    (hv : jVal f (emit false x ++ (cma :: (emitItems false y ys ++ (rbk :: t))))
        = some (x, cma :: (emitItems false y ys ++ (rbk :: t))))
    (hr : jItems f (emitItems false y ys ++ (rbk :: t)) = some (y :: ys, t)) :
    jItems (f + 1) (emitItems false x (y :: ys) ++ (rbk :: t))
      = some (x :: y :: ys, t) := by
  have hsh : emitItems false x (y :: ys) ++ (rbk :: t)
      = emit false x ++ (cma :: (emitItems false y ys ++ (rbk :: t))) := by
    simp [emitItems]
  rw [hsh]
  have h2 : isJWs cma = false := by decide
  obtain ⟨c, r, he, hw1, hw2, hw3, hw4, hw5⟩ := emitItems_head false y ys
  rw [he] at hv hr ⊢
  simp only [List.cons_append] at hv hr ⊢
  simp [jItems, hv, wsDrop_cons_of_not h2, wsDrop_cons_of_not hw1, hr]

theorem jFields_single (f : Nat) {k : Chars} {v : JVal} {t : Chars}
    (hk : k.all plainChar = true)
    (hv : jVal f (emit false v ++ (rbr :: t)) = some (v, rbr :: t)) :
    jFields (f + 1) (emitFields false (k, v) [] ++ (rbr :: t)) = some ([(k, v)], t) := by
  have hsh : emitFields false (k, v) [] ++ (rbr :: t)
      = quc :: (k ++ quc :: (cln :: (emit false v ++ (rbr :: t)))) := by
    simp [emitFields, emitStr]
  rw [hsh]
  have h2 : isJWs cln = false := by decide
  have h3 : isJWs rbr = false := by decide
  have h4 : rbr ≠ cma := by decide
  obtain ⟨c, r, he, hw1, hw1b, hw1c, hw1d, hw1e⟩ := emit_head false v
  rw [he] at hv ⊢
  simp only [List.cons_append] at hv ⊢
  simp [jFields, jStrBody_plain hk, wsDrop_cons_of_not h2, wsDrop_cons_of_not h3,
    wsDrop_cons_of_not hw1, hv, h4]

theorem jFields_cons (f : Nat) {k : Chars} {v : JVal} {k2 : Chars} {v2 : JVal}
    {gs : List (Chars × JVal)} {t : Chars}
    (hk : k.all plainChar = true)
    (hv : jVal f (emit false v ++ (cma :: (emitFields false (k2, v2) gs ++ (rbr :: t))))
        = some (v, cma :: (emitFields false (k2, v2) gs ++ (rbr :: t))))
    (hr : jFields f (emitFields false (k2, v2) gs ++ (rbr :: t))
        = some ((k2, v2) :: gs, t)) :
    jFields (f + 1) (emitFields false (k, v) ((k2, v2) :: gs) ++ (rbr :: t))
      = some ((k, v) :: (k2, v2) :: gs, t) := by
  have hsh : emitFields false (k, v) ((k2, v2) :: gs) ++ (rbr :: t)
      = quc :: (k ++ quc :: (cln :: (emit false v
          ++ (cma :: (emitFields false (k2, v2) gs ++ (rbr :: t)))))) := by
    simp [emitFields, emitStr]
  rw [hsh]
  have h2 : isJWs cln = false := by decide
  have h5 : isJWs cma = false := by decide
  have hw6 : isJWs quc = false := by decide
  obtain ⟨c, r, he, hw1, hw1b, hw1c, hw1d, hw1e⟩ := emit_head false v
  obtain ⟨r2, he2⟩ := emitFields_head false (k2, v2) gs
  rw [he] at hv ⊢
  rw [he2] at hv hr ⊢
  simp only [List.cons_append] at hv hr ⊢
  simp [jFields, jStrBody_plain hk, wsDrop_cons_of_not h2, wsDrop_cons_of_not h5,
    wsDrop_cons_of_not hw1, wsDrop_cons_of_not hw6, hv, hr]

/-- The strict rendering parses back to the value, uniformly in a stopping
continuation; fuel is bounded below by the rendered length. -/
theorem parse_emit (f : Nat) :
    (∀ v t, plainJ v = true → stopsVal t = true → (emit false v).length ≤ f →
      jVal f (emit false v ++ t) = some (v, t))
    ∧ (∀ x xs t, plainJ x = true → plainL xs = true →
        (emitItems false x xs).length < f →
      jItems f (emitItems false x xs ++ (rbk :: t)) = some (x :: xs, t))
    ∧ (∀ k v fs t, k.all plainChar = true → plainJ v = true → plainF fs = true →
        (emitFields false (k, v) fs).length < f →
      jFields f (emitFields false (k, v) fs ++ (rbr :: t)) = some ((k, v) :: fs, t)) := by
  induction f using Nat.strong_induction_on with
  | _ f ih =>
    refine ⟨?_, ?_, ?_⟩
    · intro v t hp hts hlen
      obtain ⟨c0, r0, he0, hwx1, hwx2, hwx3, hwx4, hwx5⟩ := emit_head false v
      cases f with
      | zero =>
        rw [he0] at hlen
        simp at hlen
      | succ f1 =>
        cases v with
        | jnull =>
          rw [show emit false JVal.jnull = ['n', 'u', 'l', 'l'] from by simp [emit]]
          simp only [List.cons_append, List.nil_append]
          exact jVal_null f1 t
        | jbool b =>
          cases b
          · rw [show emit false (JVal.jbool false) = ['f', 'a', 'l', 's', 'e'] from by
              simp [emit]]
            simp only [List.cons_append, List.nil_append]
            exact jVal_fls f1 t
          · rw [show emit false (JVal.jbool true) = ['t', 'r', 'u', 'e'] from by
              simp [emit]]
            simp only [List.cons_append, List.nil_append]
            exact jVal_tru f1 t
        | jnum m p =>
          have hp0 : p = 0 := by simpa [plainJ] using hp
          subst hp0
          rw [show emit false (JVal.jnum m 0) = intChars m from by simp [emit]]
          exact jVal_num f1 m hts
        | jstr s =>
          have hs : s.all plainChar = true := by simpa [plainJ] using hp
          rw [show emit false (JVal.jstr s) = emitStr s from by simp [emit]]
          rw [show emitStr s ++ t = quc :: (s ++ quc :: t) from by simp [emitStr]]
          exact jVal_str f1 hs t
        | jarr xs =>
          cases xs with
          | nil =>
            rw [show emit false (JVal.jarr []) = [lbk, rbk] from by simp [emit]]
            simp only [List.cons_append, List.nil_append]
            exact jVal_arr_nil f1 t
          | cons x rest =>
            have hp2 : plainJ x = true ∧ plainL rest = true := by
              simpa [plainJ, plainL, Bool.and_eq_true] using hp
            have hlen2 : (emit false (JVal.jarr (x :: rest))).length
                = (emitItems false x rest).length + 2 := by
              simp [emit]
            rw [show emit false (JVal.jarr (x :: rest))
                = lbk :: (emitItems false x rest ++ [rbk]) from by simp [emit]]
            rw [show (lbk :: (emitItems false x rest ++ [rbk])) ++ t
                = lbk :: (emitItems false x rest ++ (rbk :: t)) from by simp]
            exact jVal_arr_cons f1
              ((ih f1 (by omega)).2.1 x rest t hp2.1 hp2.2 (by omega))
        | jobj fs =>
          cases fs with
          | nil =>
            rw [show emit false (JVal.jobj []) = [lbr, rbr] from by simp [emit]]
            simp only [List.cons_append, List.nil_append]
            exact jVal_obj_nil f1 t
          | cons g rest =>
            obtain ⟨k, w⟩ := g
            have hp2 : k.all plainChar = true ∧ plainJ w = true ∧ plainF rest = true := by
              have h2 := hp
              simp only [plainJ, plainF, Bool.and_eq_true] at h2
              exact ⟨h2.1.1, h2.1.2, h2.2⟩
            have hlen2 : (emit false (JVal.jobj ((k, w) :: rest))).length
                = (emitFields false (k, w) rest).length + 2 := by
              simp [emit]
            rw [show emit false (JVal.jobj ((k, w) :: rest))
                = lbr :: (emitFields false (k, w) rest ++ [rbr]) from by simp [emit]]
            rw [show (lbr :: (emitFields false (k, w) rest ++ [rbr])) ++ t
                = lbr :: (emitFields false (k, w) rest ++ (rbr :: t)) from by simp]
            exact jVal_obj_cons f1
              ((ih f1 (by omega)).2.2 k w rest t hp2.1 hp2.2.1 hp2.2.2 (by omega))
    · intro x xs t hpx hpxs hlen
      cases f with
      | zero => omega
      | succ f1 =>
        cases xs with
        | nil =>
          have hsh : emitItems false x [] = emit false x := by simp [emitItems]
          rw [hsh] at hlen ⊢
          exact jItems_single f1
            ((ih f1 (by omega)).1 x (rbk :: t) hpx (by simp [stopsVal]) (by omega))
        | cons y ys =>
          have hp2 : plainJ y = true ∧ plainL ys = true := by
            simpa [plainL, Bool.and_eq_true] using hpxs
          have hlen2 : (emitItems false x (y :: ys)).length
              = (emit false x).length + 1 + (emitItems false y ys).length := by
            simp only [emitItems, List.length_append, List.length_cons]
            omega
          have hv := (ih f1 (by omega)).1 x (cma :: (emitItems false y ys ++ (rbk :: t)))
            hpx (by simp [stopsVal]) (by omega)
          have hr := (ih f1 (by omega)).2.1 y ys t hp2.1 hp2.2 (by omega)
          exact jItems_cons f1 hv hr
    · intro k v fs t hk hv0 hf hlen
      cases f with
      | zero => omega
      | succ f1 =>
        cases fs with
        | nil =>
          have hsh2 : emitFields false (k, v) [] = emitStr k ++ (cln :: emit false v) := by
            simp [emitFields]
          have hlen2 : (emitFields false (k, v) []).length
              = k.length + 3 + (emit false v).length := by
            rw [hsh2]
            simp only [emitStr, List.length_append, List.length_cons, List.length_nil]
            omega
          have hvv := (ih f1 (by omega)).1 v (rbr :: t) hv0 (by simp [stopsVal]) (by omega)
          exact jFields_single f1 hk hvv
        | cons g gs =>
          obtain ⟨k2, v2⟩ := g
          have hp2 : k2.all plainChar = true ∧ plainJ v2 = true ∧ plainF gs = true := by
            have h2 := hf
            simp only [plainF, Bool.and_eq_true] at h2
            exact ⟨h2.1.1, h2.1.2, h2.2⟩
          have hsh2 : emitFields false (k, v) ((k2, v2) :: gs)
              = (emitStr k ++ (cln :: emit false v))
                ++ (cma :: emitFields false (k2, v2) gs) := by
            simp [emitFields]
          have hlen2 : (emitFields false (k, v) ((k2, v2) :: gs)).length
              = k.length + 3 + (emit false v).length + 1
                + (emitFields false (k2, v2) gs).length := by
            rw [hsh2]
            simp only [emitStr, List.length_append, List.length_cons, List.length_nil]
            omega
          have hvv := (ih f1 (by omega)).1 v
            (cma :: (emitFields false (k2, v2) gs ++ (rbr :: t))) hv0
            (by simp [stopsVal]) (by omega)
          have hrr := (ih f1 (by omega)).2.2 k2 v2 gs t hp2.1 hp2.2.1 hp2.2.2 (by omega)
          exact jFields_cons f1 hk hvv hrr

/-- `JSON.parse` recovers a plain value from its strict rendering. -/
theorem jParse_emit {v : JVal} (hv : plainJ v = true) :
    jParse (emit false v) = some v := by
  obtain ⟨c0, r0, he0, hw0, hw0b, hw0c, hw0d, hw0e⟩ := emit_head false v
  unfold jParse
  have h := (parse_emit ((emit false v).length + 1)).1 v [] hv rfl (by omega)
  rw [List.append_nil] at h
  have hwd : wsDrop (emit false v) = emit false v := by
    rw [he0]
    exact wsDrop_cons_of_not hw0
  rw [hwd, h]
  simp [wsDrop]

/-- Claim C4, counterexample: the claim is false for part_005.  The candidate
`\x7b"a":1,\x7d` (valid JSON except the trailing comma) is extracted intact
by `extractJsonString`, but part_005 has no repair pass: `JSON.parse` fails
and the classified malformed-JSON error is thrown instead of a successful
parse.  `aiService.ts`'s `parseJsonResponse` does repair it and succeeds. -/
theorem c4_counterexample :
    extractJsonString ("\x7b\"a\":1,\x7d".toList) = some ("\x7b\"a\":1,\x7d".toList)
    ∧ p5MapResponse ("\x7b\"a\":1,\x7d".toList) = Except.error P5Err.malformedJson
    ∧ parseJsonResponseFn ("\x7b\"a\":1,\x7d".toList)
        = Except.ok (JVal.jobj [(['a'], JVal.jnum 1 0)]) :=
  ⟨rfl, rfl, rfl⟩

/-- Claim C4 (amended): the repair-then-parse property holds for
`aiService.ts` only.  For every plain value, rendering it with a trailing
comma inserted before the closer of each nonempty array and object, the
repair pass of `parseJsonResponse` removes exactly those commas (yielding
the strict rendering) and the repaired candidate parses back to the value.
part_005 has no repair pass: whenever its extracted candidate fails
`JSON.parse`, the pipeline throws its malformed-JSON error. -/
theorem c4_trailing_comma_repair (v : JVal) (hv : plainJ v = true) :
    repairCommas (emit true v) = emit false v
    ∧ jParse (repairCommas (emit true v)) = some v
    ∧ (∀ raw s, extractJsonString raw = some s → jParse s = none →
        p5MapResponse raw = Except.error P5Err.malformedJson) := by
  refine ⟨repairCommas_emit hv, ?_, ?_⟩
  · rw [repairCommas_emit hv]
    exact jParse_emit hv
  · intro raw s hs hn
    unfold p5MapResponse
    rw [hs]
    dsimp only
    rw [hn]

/-- Claim C4, witness: the amended theorem applied to the object with one
numeric member. -/
theorem c4_witness :
    repairCommas (emit true (JVal.jobj [(['a'], JVal.jnum 1 0)]))
      = emit false (JVal.jobj [(['a'], JVal.jnum 1 0)])
    ∧ jParse (repairCommas (emit true (JVal.jobj [(['a'], JVal.jnum 1 0)])))
      = some (JVal.jobj [(['a'], JVal.jnum 1 0)]) :=
  ⟨(c4_trailing_comma_repair (JVal.jobj [(['a'], JVal.jnum 1 0)])
      (by simp [plainJ, plainF, plainChar]; decide)).1,
   (c4_trailing_comma_repair (JVal.jobj [(['a'], JVal.jnum 1 0)])
      (by simp [plainJ, plainF, plainChar]; decide)).2.1⟩
